import Mathlib

/-!
# Verification of the dbt graph-analysis core (`src/analysis.py`)

This file gives a shallow embedding of the graph extraction and
relationship-analysis engine of the repository: `read_graph`,
`extract_data_graph`, `extract_node_graph`, `analyze_data_graph`,
`create_pydot_viz` and `get_relations_df`, together with a model of the
networkx primitives they call (`DiGraph.add_node`, `DiGraph.add_edge`,
`G.subgraph`, `nx.dag.ancestors`, `nx.dag.descendants`,
`nx.shortest_path_length`, `nx.degree`, `nx.betweenness_centrality`,
`nx.clustering`).

A directed graph is a list of node ids (insertion order), an association
list of node attributes, and a list of directed edges.  The networkx
reachability and shortest-path primitives are modelled by a fueled
breadth-first expansion over the edge set, proved equivalent to the
existence of directed walks.
-/

set_option maxHeartbeats 1000000

namespace DbtGraph

/-- Attribute bags of manifest entries: opaque key/value association lists
(Python dictionaries with string keys). -/
abbrev Attrs := List (String × String)

/-- First-match association-list lookup (Python `dict.__getitem__` /
`dict.get`). -/
def alookup {β : Type} (l : List (String × β)) (k : String) : Option β :=
  match l with
  | [] => none
  | kv :: rest => if kv.1 = k then some kv.2 else alookup rest k

/-- Python `d[k] = v` on an association list: replace the first entry with
key `k` in place, or append a new entry at the end. -/
def dictInsert {β : Type} (l : List (String × β)) (k : String) (v : β) :
    List (String × β) :=
  match l with
  | [] => [(k, v)]
  | kv :: rest => if kv.1 = k then (k, v) :: rest else kv :: dictInsert rest k v

/-- Python `old.update(new)` on attribute dictionaries: existing keys keep
their position but take the new value, new keys are appended. -/
def dictUpdate (old new : Attrs) : Attrs :=
  old.map (fun kv => (kv.1, (alookup new kv.1).getD kv.2)) ++
    new.filter (fun kv => (alookup old kv.1).isNone)

@[simp] theorem alookup_nil {β : Type} (k : String) :
    alookup ([] : List (String × β)) k = none := rfl

theorem alookup_cons {β : Type} (kv : String × β) (l : List (String × β))
    (k : String) :
    alookup (kv :: l) k = if kv.1 = k then some kv.2 else alookup l k := rfl

theorem alookup_append {β : Type} (l l' : List (String × β)) (k : String) :
    alookup (l ++ l') k =
      match alookup l k with
      | some v => some v
      | none => alookup l' k := by
  induction l with
  | nil => simp [alookup]
  | cons kv rest ih =>
    by_cases h : kv.1 = k <;> simp [alookup, h, ih]

theorem alookup_dictInsert_self {β : Type} (l : List (String × β))
    (k : String) (v : β) : alookup (dictInsert l k v) k = some v := by
  induction l with
  | nil => simp [dictInsert, alookup]
  | cons kv rest ih =>
    by_cases h : kv.1 = k <;> simp [dictInsert, alookup, h, ih]

theorem alookup_dictInsert_ne {β : Type} (l : List (String × β))
    (k k' : String) (v : β) (h : k' ≠ k) :
    alookup (dictInsert l k v) k' = alookup l k' := by
  have hkk : ¬ k = k' := fun h' => h h'.symm
  induction l with
  | nil => simp [dictInsert, alookup, hkk]
  | cons kv rest ih =>
    by_cases hk : kv.1 = k
    · subst hk
      simp [dictInsert, alookup, hkk]
    · simp only [dictInsert, if_neg hk]
      by_cases hk' : kv.1 = k' <;> simp [alookup, hk', ih]

/-- The directed graph structure modelling `networkx.DiGraph`: node ids in
insertion order, per-node attribute dictionaries, and directed edges in
insertion order.  The operations below keep `nodeList` and `edgeList`
duplicate-free, as networkx's set-based representation does. -/
structure DGraph where
  nodeList : List String
  attrs : List (String × Attrs)
  edgeList : List (String × String)
deriving DecidableEq, Repr

/-- The empty `DiGraph`. -/
def DGraph.empty : DGraph := ⟨[], [], []⟩

/-- `G.add_node(n, **d)`: a new node is appended with attribute bag `d`;
an existing node has `d` merged into its bag by `dict.update`. -/
def addNode (g : DGraph) (n : String) (d : Attrs) : DGraph :=
  if n ∈ g.nodeList then
    { g with attrs := (g.attrs.map
        (fun kv => if kv.1 = n then (kv.1, dictUpdate kv.2 d) else kv)) }
  else
    { g with nodeList := g.nodeList ++ [n], attrs := g.attrs ++ [(n, d)] }

/-- The node-creating half of `G.add_edge`: an absent endpoint is created
with an empty attribute bag. -/
def addEdgeNode (g : DGraph) (n : String) : DGraph :=
  if n ∈ g.nodeList then g
  else { g with nodeList := g.nodeList ++ [n], attrs := g.attrs ++ [(n, [])] }

/-- The edge-inserting half of `G.add_edge`: the edge is appended only if
not already present (edge insertion is idempotent). -/
def addEdgeAux (g : DGraph) (u v : String) : DGraph :=
  if (u, v) ∈ g.edgeList then g
  else { g with edgeList := g.edgeList ++ [(u, v)] }

/-- `G.add_edge(u, v)`: both endpoints are created if absent and the edge
is inserted if not already present. -/
def addEdge (g : DGraph) (u v : String) : DGraph :=
  addEdgeAux (addEdgeNode (addEdgeNode g u) v) u v

/-- `G.subgraph(ns)`: the induced subgraph on the nodes of `G` that are in
`ns`, keeping node order, attributes and both-endpoint edges. -/
def subgraph (g : DGraph) (ns : List String) : DGraph :=
  { nodeList := g.nodeList.filter (fun n => decide (n ∈ ns)),
    attrs := g.attrs.filter (fun kv => decide (kv.1 ∈ ns)),
    edgeList := g.edgeList.filter
      (fun e => decide (e.1 ∈ ns) && decide (e.2 ∈ ns)) }

/-- The manifest content consumed by `read_graph`: the three attribute
mappings and the two dependency maps, as ordered key/value lists
(Python dictionaries iterate in insertion order). -/
structure Manifest where
  nodes : List (String × Attrs)
  sources : List (String × Attrs)
  exposures : List (String × Attrs)
  child_map : List (String × List String)
  parent_map : List (String × List String)
deriving Repr

/-- `read_graph` (graph-construction part): one `add_node` per entry of
`nodes`, `sources` and `exposures` in that order, then edges key→child for
`child_map` and parent→key for `parent_map`. -/
def read_graph (m : Manifest) : DGraph :=
  let g0 := DGraph.empty
  let g1 := m.nodes.foldl (fun g kv => addNode g kv.1 kv.2) g0
  let g2 := m.sources.foldl (fun g kv => addNode g kv.1 kv.2) g1
  let g3 := m.exposures.foldl (fun g kv => addNode g kv.1 kv.2) g2
  let g4 := m.child_map.foldl
    (fun g nc => nc.2.foldl (fun g c => addEdge g nc.1 c) g) g3
  let g5 := m.parent_map.foldl
    (fun g np => np.2.foldl (fun g p => addEdge g p np.1) g) g4
  g5

/-- A graph is wellformed when its edges connect nodes of the graph and
node and edge lists are duplicate-free — every `networkx.DiGraph`
satisfies this. -/
def DGraph.Wf (g : DGraph) : Prop :=
  (∀ e ∈ g.edgeList, e.1 ∈ g.nodeList ∧ e.2 ∈ g.nodeList) ∧
    g.nodeList.Nodup ∧ g.edgeList.Nodup

instance (g : DGraph) : Decidable g.Wf := by
  unfold DGraph.Wf; infer_instance

/-- The node set of a graph. -/
def nodeFinset (g : DGraph) : Finset String := g.nodeList.toFinset

/-- The edge set of a graph. -/
def edgeFinset (g : DGraph) : Finset (String × String) := g.edgeList.toFinset

/-! ## Reachability over an edge set

`nx.dag.descendants` / `nx.dag.ancestors` are breadth-first reachability
over the directed (respectively reversed) edge relation, and
`nx.shortest_path_length` is breadth-first shortest-path search.  They are
modelled by a fueled expansion `ball` of the set of nodes reachable within
`k` steps, proved below to coincide with the existence of directed walks. -/

/-- Successors of `u` in the edge set `E`. -/
def succs (E : Finset (String × String)) (u : String) : Finset String :=
  (E.filter (fun e => e.1 = u)).image Prod.snd

theorem mem_succs {E : Finset (String × String)} {u v : String} :
    v ∈ succs E u ↔ (u, v) ∈ E := by
  constructor
  · intro h
    obtain ⟨e, he, hev⟩ := Finset.mem_image.mp h
    obtain ⟨heE, heu⟩ := Finset.mem_filter.mp he
    have : e = (u, v) := by
      cases e; simp_all
    rwa [this] at heE
  · intro h
    exact Finset.mem_image.mpr ⟨(u, v), Finset.mem_filter.mpr ⟨h, rfl⟩, rfl⟩

/-- One breadth-first expansion step: the set together with all successors
of its members. -/
def bfsStep (E : Finset (String × String)) (S : Finset String) :
    Finset String :=
  S ∪ S.biUnion (fun u => succs E u)

/-- Nodes reachable from `s` by directed walks of length at most `k`. -/
def ball (E : Finset (String × String)) : Nat → String → Finset String
  | 0, s => {s}
  | k + 1, s => bfsStep E (ball E k s)

/-- Directed walks of a given length in an edge set. -/
inductive Walk (E : Finset (String × String)) : String → String → Nat → Prop
  | nil (s : String) : Walk E s s 0
  | cons {s u t : String} {k : Nat} :
      (s, u) ∈ E → Walk E u t k → Walk E s t (k + 1)

theorem Walk.snoc {E : Finset (String × String)} {s t w : String} {k : Nat}
    (hw : Walk E s t k) (he : (t, w) ∈ E) : Walk E s w (k + 1) := by
  induction hw with
  | nil s => exact Walk.cons he (Walk.nil w)
  | cons h rest ih => exact Walk.cons h (ih he)

theorem walk_zero_iff {E : Finset (String × String)} {s t : String} :
    Walk E s t 0 ↔ s = t := by
  constructor
  · intro h; cases h; rfl
  · rintro rfl; exact Walk.nil s

theorem walk_last_edge {E : Finset (String × String)} :
    ∀ {k : Nat} {s t : String}, Walk E s t (k + 1) →
      ∃ u, Walk E s u k ∧ (u, t) ∈ E := by
  intro k
  induction k with
  | zero =>
    intro s t h
    cases h with
    | cons he rest =>
      rename_i u
      have : u = t := walk_zero_iff.mp rest
      subst this
      exact ⟨s, Walk.nil s, he⟩
  | succ m ih =>
    intro s t h
    cases h with
    | cons he rest =>
      obtain ⟨w, hw, hwt⟩ := ih rest
      exact ⟨w, Walk.cons he hw, hwt⟩

/-- End-decomposition of a positive-length walk. -/
theorem walk_succ_iff {E : Finset (String × String)} {s t : String} {k : Nat} :
    Walk E s t (k + 1) ↔ ∃ u, Walk E s u k ∧ (u, t) ∈ E := by
  constructor
  · exact walk_last_edge
  · rintro ⟨u, hu, hut⟩
    exact hu.snoc hut

theorem mem_ball_iff {E : Finset (String × String)} {k : Nat} {s t : String} :
    t ∈ ball E k s ↔ ∃ j ≤ k, Walk E s t j := by
  induction k generalizing t with
  | zero =>
    simp only [ball, Finset.mem_singleton]
    constructor
    · rintro rfl; exact ⟨0, le_refl 0, Walk.nil _⟩
    · rintro ⟨j, hj, hw⟩
      have : j = 0 := Nat.le_zero.mp hj
      subst this
      exact (walk_zero_iff.mp hw).symm
  | succ k ih =>
    simp only [ball, bfsStep, Finset.mem_union, Finset.mem_biUnion]
    constructor
    · rintro (h | ⟨u, hu, ht⟩)
      · obtain ⟨j, hj, hw⟩ := ih.mp h
        exact ⟨j, Nat.le_succ_of_le hj, hw⟩
      · obtain ⟨j, hj, hw⟩ := ih.mp hu
        exact ⟨j + 1, Nat.succ_le_succ hj, hw.snoc (mem_succs.mp ht)⟩
    · rintro ⟨j, hj, hw⟩
      cases j with
      | zero => exact Or.inl (ih.mpr ⟨0, Nat.zero_le k, hw⟩)
      | succ m =>
        obtain ⟨u, hu, hut⟩ := walk_succ_iff.mp hw
        exact Or.inr ⟨u, ih.mpr ⟨m, Nat.le_of_succ_le_succ hj, hu⟩,
          mem_succs.mpr hut⟩

theorem ball_mono_succ (E : Finset (String × String)) (k : Nat) (s : String) :
    ball E k s ⊆ ball E (k + 1) s := by
  intro t ht
  exact Finset.mem_union_left _ ht

theorem ball_mono (E : Finset (String × String)) {j k : Nat} (h : j ≤ k)
    (s : String) : ball E j s ⊆ ball E k s := by
  intro t ht
  obtain ⟨i, hi, hw⟩ := mem_ball_iff.mp ht
  exact mem_ball_iff.mpr ⟨i, le_trans hi h, hw⟩

theorem ball_stable_of_eq {E : Finset (String × String)} {k : Nat} {s : String}
    (h : ball E (k + 1) s = ball E k s) :
    ∀ m, ball E (k + m) s = ball E k s := by
  intro m
  induction m with
  | zero => rfl
  | succ m ih =>
    have h1 : ball E (k + (m + 1)) s = bfsStep E (ball E (k + m) s) := rfl
    have h2 : bfsStep E (ball E k s) = ball E k s := h
    rw [h1, ih]
    exact h2

theorem ball_subset_ambient (E : Finset (String × String)) (k : Nat)
    (s : String) : ball E k s ⊆ insert s (E.image Prod.snd) := by
  induction k with
  | zero =>
    intro t ht
    simp only [ball, Finset.mem_singleton] at ht
    subst ht
    exact Finset.mem_insert_self t _
  | succ k ih =>
    intro t ht
    rcases Finset.mem_union.mp ht with h | h
    · exact ih h
    · obtain ⟨u, _, ht'⟩ := Finset.mem_biUnion.mp h
      exact Finset.mem_insert_of_mem
        (Finset.mem_image.mpr ⟨(u, t), mem_succs.mp ht', rfl⟩)

theorem ball_card_grow {E : Finset (String × String)} {s : String} {k : Nat}
    (h : ∀ j < k, ball E (j + 1) s ≠ ball E j s) :
    k + 1 ≤ (ball E k s).card := by
  induction k with
  | zero => simp [ball]
  | succ k ih =>
    have hk : ∀ j < k, ball E (j + 1) s ≠ ball E j s :=
      fun j hj => h j (Nat.lt_succ_of_lt hj)
    have h1 : ball E k s ⊆ ball E (k + 1) s := ball_mono_succ E k s
    have h2 : ball E k s ≠ ball E (k + 1) s :=
      fun he => h k (Nat.lt_succ_self k) he.symm
    have hlt : (ball E k s).card < (ball E (k + 1) s).card :=
      Finset.card_lt_card (Finset.ssubset_iff_subset_ne.mpr ⟨h1, h2⟩)
    have hik := ih hk
    omega

/-- Within fuel `E.card + 1` the breadth-first expansion has stabilised. -/
theorem ball_stable_at_fuel (E : Finset (String × String)) (s : String) :
    ∀ m, ball E (E.card + 1 + m) s = ball E (E.card + 1) s := by
  by_cases h : ∃ j < E.card + 1, ball E (j + 1) s = ball E j s
  · obtain ⟨j, hj, hstab⟩ := h
    intro m
    have hF : ∀ m', ball E (j + m') s = ball E j s := ball_stable_of_eq hstab
    have h1 : ball E (E.card + 1 + m) s = ball E j s := by
      have : E.card + 1 + m = j + (E.card + 1 + m - j) := by omega
      rw [this]; exact hF _
    have h2 : ball E (E.card + 1) s = ball E j s := by
      have : E.card + 1 = j + (E.card + 1 - j) := by omega
      rw [this]; exact hF _
    rw [h1, h2]
  · push_neg at h
    exfalso
    have hgrow : E.card + 1 + 1 ≤ (ball E (E.card + 1) s).card :=
      ball_card_grow h
    have hsub : (ball E (E.card + 1) s).card ≤
        (insert s (E.image Prod.snd)).card :=
      Finset.card_le_card (ball_subset_ambient E _ s)
    have himg : (E.image Prod.snd).card ≤ E.card := Finset.card_image_le
    have hins : (insert s (E.image Prod.snd)).card ≤
        (E.image Prod.snd).card + 1 := Finset.card_insert_le _ _
    omega

/-- The full reachable set (the result of `nx.descendants(G, s) ∪ {s}` for
the edge set of `G`). -/
def reachSet (E : Finset (String × String)) (s : String) : Finset String :=
  ball E (E.card + 1) s

theorem mem_reachSet {E : Finset (String × String)} {s t : String} :
    t ∈ reachSet E s ↔ ∃ j, Walk E s t j := by
  constructor
  · intro h
    obtain ⟨j, _, hw⟩ := mem_ball_iff.mp h
    exact ⟨j, hw⟩
  · rintro ⟨j, hw⟩
    by_cases hj : j ≤ E.card + 1
    · exact ball_mono E hj s (mem_ball_iff.mpr ⟨j, le_refl j, hw⟩)
    · have : ball E j s = ball E (E.card + 1) s := by
        have : j = E.card + 1 + (j - (E.card + 1)) := by omega
        rw [this]
        exact ball_stable_at_fuel E s _
      rw [reachSet, ← this]
      exact mem_ball_iff.mpr ⟨j, le_refl j, hw⟩

/-- Linear search for the least index satisfying `p`, starting at `k` with
the given fuel. -/
def firstHit (p : Nat → Bool) : Nat → Nat → Option Nat
  | 0, _ => none
  | fuel + 1, k => if p k then some k else firstHit p fuel (k + 1)

theorem firstHit_eq_some {p : Nat → Bool} :
    ∀ {fuel k d : Nat}, firstHit p fuel k = some d →
      p d = true ∧ k ≤ d ∧ ∀ j, k ≤ j → j < d → p j = false := by
  intro fuel
  induction fuel with
  | zero => intro k d h; simp [firstHit] at h
  | succ fuel ih =>
    intro k d h
    by_cases hp : p k
    · simp [firstHit, hp] at h
      subst h
      exact ⟨hp, le_refl k, fun j h1 h2 => absurd h1 (Nat.not_le_of_lt h2)⟩
    · simp [firstHit, hp] at h
      obtain ⟨hd, hk, hmin⟩ := ih h
      refine ⟨hd, by omega, fun j h1 h2 => ?_⟩
      rcases Nat.eq_or_lt_of_le h1 with h1 | h1
      · subst h1; exact Bool.of_not_eq_true hp
      · exact hmin j h1 h2

theorem firstHit_eq_none {p : Nat → Bool} :
    ∀ {fuel k : Nat}, firstHit p fuel k = none →
      ∀ j, k ≤ j → j < k + fuel → p j = false := by
  intro fuel
  induction fuel with
  | zero => intro k h j h1 h2; omega
  | succ fuel ih =>
    intro k h j h1 h2
    by_cases hp : p k
    · simp [firstHit, hp] at h
    · simp [firstHit, hp] at h
      rcases Nat.eq_or_lt_of_le h1 with h1 | h1
      · subst h1; exact Bool.of_not_eq_true hp
      · exact ih h j h1 (by omega)

/-- `nx.shortest_path_length(G, s, t)` over edge set `E`: the least walk
length from `s` to `t`, or `none` when `t` is unreachable (networkx raises
`NetworkXNoPath` there).  The search range `E.card + 2` covers the whole
stabilised breadth-first expansion. -/
def distOpt (E : Finset (String × String)) (s t : String) : Option Nat :=
  firstHit (fun k => decide (t ∈ ball E k s)) (E.card + 2) 0

/-- The distance/relationship tables speak about shortest directed path
lengths; shortest walks and shortest paths coincide. -/
def IsShortestPathLen (E : Finset (String × String)) (s t : String)
    (d : Nat) : Prop :=
  Walk E s t d ∧ ∀ j, Walk E s t j → d ≤ j

theorem distOpt_isSome_of_walk {E : Finset (String × String)} {s t : String}
    {j : Nat} (hw : Walk E s t j) : (distOpt E s t).isSome := by
  rw [distOpt]
  cases hfh : firstHit (fun k => decide (t ∈ ball E k s)) (E.card + 2) 0 with
  | some d => rfl
  | none =>
    exfalso
    have hmem : t ∈ ball E (E.card + 1) s :=
      mem_reachSet.mpr ⟨j, hw⟩
    have := firstHit_eq_none hfh (E.card + 1) (Nat.zero_le _) (by omega)
    simp [hmem] at this

theorem distOpt_shortest {E : Finset (String × String)} {s t : String}
    {d : Nat} (h : distOpt E s t = some d) : IsShortestPathLen E s t d := by
  obtain ⟨hd, _, hmin⟩ := firstHit_eq_some h
  have hmem : t ∈ ball E d s := of_decide_eq_true hd
  obtain ⟨j, hj, hw⟩ := mem_ball_iff.mp hmem
  have hje : j = d := by
    rcases Nat.eq_or_lt_of_le hj with hje | hjlt
    · exact hje
    · exfalso
      have := hmin j (Nat.zero_le j) hjlt
      have hmem' : t ∈ ball E j s := mem_ball_iff.mpr ⟨j, le_refl j, hw⟩
      simp [hmem'] at this
  subst hje
  refine ⟨hw, fun i hi => ?_⟩
  by_contra hlt
  push_neg at hlt
  have := hmin i (Nat.zero_le i) hlt
  have hmem' : t ∈ ball E i s := mem_ball_iff.mpr ⟨i, le_refl i, hi⟩
  simp [hmem'] at this

theorem distOpt_none_iff {E : Finset (String × String)} {s t : String} :
    distOpt E s t = none ↔ ∀ j, ¬ Walk E s t j := by
  constructor
  · intro h j hw
    have := distOpt_isSome_of_walk hw
    rw [h] at this
    simp at this
  · intro h
    cases hd : distOpt E s t with
    | none => rfl
    | some d =>
      exact absurd (distOpt_shortest hd).1 (h d)

theorem distOpt_self (E : Finset (String × String)) (s : String) :
    distOpt E s s = some 0 := by
  rw [distOpt]
  have h0 : s ∈ ball E 0 s := by simp [ball]
  simp [firstHit, h0]

/-- The reversed edge set, used to model `nx.dag.ancestors` as reachability
along reversed edges. -/
def eswap (E : Finset (String × String)) : Finset (String × String) :=
  E.image (fun e => (e.2, e.1))

theorem mem_eswap {E : Finset (String × String)} {a b : String} :
    (a, b) ∈ eswap E ↔ (b, a) ∈ E := by
  constructor
  · intro h
    obtain ⟨e, he, heq⟩ := Finset.mem_image.mp h
    have h1 : e.2 = a := congrArg Prod.fst heq
    have h2 : e.1 = b := congrArg Prod.snd heq
    have : e = (b, a) := by cases e; simp_all
    rwa [this] at he
  · intro h
    exact Finset.mem_image.mpr ⟨(b, a), h, rfl⟩

theorem walk_eswap_of_walk {E : Finset (String × String)} :
    ∀ {k : Nat} {s t : String}, Walk E s t k → Walk (eswap E) t s k := by
  intro k s t hw
  induction hw with
  | nil s => exact Walk.nil s
  | cons he _ ih =>
    exact ih.snoc (mem_eswap.mpr he)

theorem eswap_eswap (E : Finset (String × String)) : eswap (eswap E) = E := by
  ext e
  cases e
  rw [mem_eswap, mem_eswap]

theorem walk_eswap_iff {E : Finset (String × String)} {k : Nat}
    {s t : String} : Walk (eswap E) s t k ↔ Walk E t s k := by
  constructor
  · intro h
    have := walk_eswap_of_walk h
    rwa [eswap_eswap] at this
  · exact walk_eswap_of_walk

/-! ## Spec-side relationship predicates -/

/-- `a` is an ancestor of `x`: a different node with a directed path to
`x`. -/
def IsAncestor (g : DGraph) (a x : String) : Prop :=
  a ≠ x ∧ ∃ j, Walk (edgeFinset g) a x j

/-- `v` is a descendant of `x`: a different node reachable from `x` by a
directed path. -/
def IsDescendant (g : DGraph) (v x : String) : Prop :=
  v ≠ x ∧ ∃ j, Walk (edgeFinset g) x v j

/-! ## The analysis functions of `src/analysis.py` -/

/-- The errors surfaced by the networkx calls in the analysis functions:
`NodeNotFoundError` (networkx `NetworkXError` for an absent node),
`NetworkXNoPath` from `shortest_path_length`, and a Python `KeyError` from
the `node_fmt` lookup. -/
inductive NXErr where
  | nodeNotFound
  | noPath
  | keyError
deriving DecidableEq, Repr

/-- The attribute bag networkx hands back for a node
(`G.nodes(data=True)`). -/
def nodeData (g : DGraph) (n : String) : Attrs :=
  (alookup g.attrs n).getD []

/-- `e.get("resource_type")`. -/
def resourceType (g : DGraph) (n : String) : Option String :=
  alookup (nodeData g n) "resource_type"

/-- `[n for n in nx.dag.descendants(G, node)]`, listed in node order:
the nodes other than `node` reachable from it. -/
def descendantsList (g : DGraph) (n : String) : List String :=
  g.nodeList.filter
    (fun v => decide (v ∈ reachSet (edgeFinset g) n) && decide (v ≠ n))

/-- `[n for n in nx.dag.ancestors(G, node)]`, listed in node order:
the nodes other than `node` that reach it (reachability along reversed
edges). -/
def ancestorsList (g : DGraph) (n : String) : List String :=
  g.nodeList.filter
    (fun v => decide (v ∈ reachSet (eswap (edgeFinset g)) n) && decide (v ≠ n))

/-- The `data_resources` list of `extract_data_graph`. -/
def data_resources : List String :=
  ["seed", "source", "model", "analysis", "snapshot"]

/-- `extract_data_graph(G)`: the induced subgraph on the nodes whose
`resource_type` is one of the data resources. -/
def extract_data_graph (g : DGraph) : DGraph :=
  subgraph g (g.nodeList.filter
    (fun n => match resourceType g n with
      | some rt => data_resources.contains rt
      | none => false))

/-- `extract_node_graph(G, node)`: `NodeNotFoundError` when `node` is
absent, otherwise the induced subgraph on `[node] + ancestors +
descendants`. -/
def extract_node_graph (g : DGraph) (node : String) : Except NXErr DGraph :=
  if node ∈ g.nodeList then
    .ok (subgraph g (node :: (ancestorsList g node ++ descendantsList g node)))
  else .error .nodeNotFound

/-- State-passing form of `extract_data_graph`: the source only reads `G`
(`G.nodes`, `G.subgraph`), so the post-state is the input graph. -/
def extract_data_graph_run (g : DGraph) : DGraph × DGraph :=
  (extract_data_graph g, g)

/-- State-passing form of `extract_node_graph`: the source only reads `G`
(`nx.dag.descendants`, `nx.dag.ancestors`, `G.subgraph`), so the
post-state is the input graph. -/
def extract_node_graph_run (g : DGraph) (node : String) :
    Except NXErr DGraph × DGraph :=
  (extract_node_graph g node, g)

/-! ### `analyze_data_graph`: degree, betweenness centrality, clustering -/

/-- Number of walks of length exactly `k` from `s` to `t`; at the shortest
distance this is the number of shortest paths. -/
def countWalks (E : Finset (String × String)) : Nat → String → String → Nat
  | 0, s, t => if s = t then 1 else 0
  | k + 1, s, t => ∑ u ∈ succs E s, countWalks E k u t

/-- Number of shortest `s → t` paths (`σ_st` of betweenness centrality);
`0` when `t` is unreachable. -/
def sigmaST (E : Finset (String × String)) (s t : String) : Nat :=
  match distOpt E s t with
  | some d => countWalks E d s t
  | none => 0

/-- The pair dependency of betweenness centrality: the fraction of
shortest `s → t` paths passing through `v`. -/
def pairDep (E : Finset (String × String)) (v s t : String) : ℚ :=
  match distOpt E s t, distOpt E s v, distOpt E v t with
  | some dst, some dsv, some dvt =>
      if dsv + dvt = dst then
        ((countWalks E dsv s v * countWalks E dvt v t : Nat) : ℚ) /
          ((countWalks E dst s t : Nat) : ℚ)
      else 0
  | _, _, _ => 0

/-- `nx.betweenness_centrality(G)[v]`: pair dependencies summed over all
ordered pairs of nodes distinct from `v`, rescaled by
`1/((n-1)(n-2))` for a directed graph on `n > 2` nodes. -/
def betweennessOf (V : Finset String) (E : Finset (String × String))
    (v : String) : ℚ :=
  (if 2 < V.card then 1 / (((V.card : ℚ) - 1) * ((V.card : ℚ) - 2)) else 1) *
    ∑ s ∈ V.erase v, ∑ t ∈ (V.erase v).erase s, pairDep E v s t

/-- `nx.degree(G)[u]` for a `DiGraph`: in-degree plus out-degree. -/
def degreeOf (E : Finset (String × String)) (u : String) : Nat :=
  (E.filter (fun e => e.1 = u)).card + (E.filter (fun e => e.2 = u)).card

/-- Symmetrised adjacency indicator `(A + Aᵀ)_{x y}` of the directed
clustering coefficient. -/
def ahat (E : Finset (String × String)) (x y : String) : Nat :=
  (if (x, y) ∈ E then 1 else 0) + (if (y, x) ∈ E then 1 else 0)

/-- Twice the directed-triangle count through `u`. -/
def triOf (V : Finset String) (E : Finset (String × String))
    (u : String) : Nat :=
  ∑ j ∈ V.erase u, ∑ k ∈ V.erase u, ahat E u j * ahat E j k * ahat E k u

/-- Total degree ignoring self-loops, as used by directed clustering. -/
def dtotOf (E : Finset (String × String)) (u : String) : Nat :=
  (E.filter (fun e => e.1 = u ∧ e.2 ≠ u)).card +
    (E.filter (fun e => e.2 = u ∧ e.1 ≠ u)).card

/-- Number of reciprocated neighbours of `u`. -/
def dbiOf (E : Finset (String × String)) (u : String) : Nat :=
  (E.filter (fun e => e.1 = u ∧ e.2 ≠ u ∧ (e.2, e.1) ∈ E)).card

/-- `nx.clustering(G)[u]` for a `DiGraph`: the directed (Fagiolo)
clustering coefficient, `0` on a degenerate denominator. -/
def clusteringOf (V : Finset String) (E : Finset (String × String))
    (u : String) : ℚ :=
  let dt := dtotOf E u
  let denom := dt * (dt - 1) - 2 * dbiOf E u
  if denom = 0 then 0 else (triOf V E u : ℚ) / (2 * (denom : ℚ))

/-- The degree column of `analyze_data_graph`. -/
def degree (g : DGraph) (u : String) : Nat := degreeOf (edgeFinset g) u

/-- The centrality column of `analyze_data_graph`. -/
def centrality (g : DGraph) (u : String) : ℚ :=
  betweennessOf (nodeFinset g) (edgeFinset g) u

/-- The clustering column of `analyze_data_graph`. -/
def clustering (g : DGraph) (u : String) : ℚ :=
  clusteringOf (nodeFinset g) (edgeFinset g) u

/-- One row of the metrics table of `analyze_data_graph` (the columns the
core computes; the node's manifest attributes are carried alongside). -/
structure MetricsRow where
  degree : Nat
  centrality : ℚ
  clustering : ℚ
deriving DecidableEq, Repr

/-- `analyze_data_graph(G)` as the per-node mapping of its computed
columns. -/
def analyze_data_graph (g : DGraph) (u : String) : MetricsRow :=
  ⟨degree g u, centrality g u, clustering g u⟩

/-! ### `get_relations_df` -/

/-- One row of the relation table: `distance` and `relationship`. -/
structure RelRow where
  distance : Nat
  relationship : String
deriving DecidableEq, Repr

/-- One `for r, target in ...` loop of `get_relations_df`: look up the
shortest-path distance of each target (raising `NetworkXNoPath` if there
is none) and store `{"distance": dist, "relationship": rel}` into the
dictionary, overwriting an existing entry for the same target. -/
def relFold (dist : String → Option Nat) (rel : String) :
    List String → List (String × RelRow) → Except NXErr (List (String × RelRow))
  | [], data => .ok data
  | t :: ts, data =>
    match dist t with
    | some k => relFold dist rel ts (dictInsert data t ⟨k, rel⟩)
    | none => .error .noPath

/-- `get_relations_df(G, n)`: `NodeNotFoundError` for an absent node,
otherwise the dictionary built by the ancestor loop followed by the
descendant loop. -/
def get_relations_df (g : DGraph) (n : String) :
    Except NXErr (List (String × RelRow)) :=
  if n ∈ g.nodeList then
    match relFold (fun a => distOpt (edgeFinset g) a n) "ancestor"
        (ancestorsList g n) [] with
    | .error e => .error e
    | .ok d1 => relFold (fun t => distOpt (edgeFinset g) n t) "descendant"
        (descendantsList g n) d1
  else .error .nodeNotFound

/-! ### `create_pydot_viz` -/

/-- The static per-resource-type style table `node_fmt`. -/
def node_fmt : List (String × Attrs) :=
  [("model", [("shape", "box"), ("fillcolor", "white"), ("fontcolor", "black"),
      ("color", "black"), ("style", "filled")]),
   ("test", [("shape", "ellipses"), ("fillcolor", "yellow"),
      ("fontcolor", "black"), ("color", "black"), ("style", "filled")]),
   ("source", [("shape", "cds"), ("fillcolor", "white"),
      ("fontcolor", "black"), ("color", "blue"), ("style", "filled")]),
   ("seed", [("shape", "cds"), ("fillcolor", "white"), ("fontcolor", "black"),
      ("color", "blue"), ("style", "filled")]),
   ("snapshot", [("shape", "component"), ("fillcolor", "yellow"),
      ("fontcolor", "black"), ("color", "black"), ("style", "filled")]),
   ("analysis", [("shape", "note"), ("fillcolor", "yellow"),
      ("fontcolor", "black"), ("color", "black"), ("style", "filled")]),
   ("operation", [("shape", "diamond"), ("fillcolor", "yellow"),
      ("fontcolor", "black"), ("color", "black"), ("style", "filled")]),
   ("exposure", [("shape", "diamond"), ("fillcolor", "yellow"),
      ("fontcolor", "black"), ("color", "black"), ("style", "filled")])]

/-- Python `str` of an optional string (`None` prints as `"None"`). -/
def optStr (o : Option String) : String :=
  match o with
  | some s => s
  | none => "None"

/-- The `try/except` distance of `create_pydot_viz`: forward shortest-path
length from `n` to the selected node, falling back to the reverse
direction; the fallback is unguarded, so two-way unreachability raises. -/
def vizDist (E : Finset (String × String)) (selected n : String) :
    Except NXErr Nat :=
  match distOpt E n selected with
  | some d => .ok d
  | none =>
    match distOpt E selected n with
    | some d => .ok d
    | none => .error .noPath

/-- The node list and per-node attribute strings accumulated by the main
loop of `create_pydot_viz`. -/
structure VizAcc where
  nodeList : List String
  nodeFmts : List (String × Attrs)
deriving DecidableEq, Repr

/-- One iteration of the `for n, e in G.nodes(data=True)` loop of
`create_pydot_viz`: compute the distance (possibly raising), skip nodes
beyond `max_node_distance` or of a hidden resource type, then attach the
style row, the label, and the green fill override for the selected
node. -/
def vizStep (g : DGraph) (selected : String) (visible : List String)
    (maxDist : Int) (acc : VizAcc) (n : String) : Except NXErr VizAcc :=
  let e := nodeData g n
  let rt := alookup e "resource_type"
  match vizDist (edgeFinset g) selected n with
  | .error err => .error err
  | .ok dist =>
    if decide ((dist : Int) > maxDist) || !(match rt with
        | some s => visible.contains s
        | none => false) then .ok acc
    else
      match (match rt with | some s => alookup node_fmt s | none => none) with
      | none => .error .keyError
      | some fmt =>
        let label := if rt ≠ some "model" then
            optStr rt ++ "." ++ optStr (alookup e "name")
          else optStr (alookup e "name")
        let fmt1 := fmt ++ [("label", label)]
        let fmt2 := if n = selected then dictInsert fmt1 "fillcolor" "green"
          else fmt1
        .ok ⟨acc.nodeList ++ [n], acc.nodeFmts ++ [(n, fmt2)]⟩

/-- The main loop of `create_pydot_viz` over the graph's nodes. -/
def vizLoop (g : DGraph) (selected : String) (visible : List String)
    (maxDist : Int) : List String → VizAcc → Except NXErr VizAcc
  | [], acc => .ok acc
  | n :: rest, acc =>
    match vizStep g selected visible maxDist acc n with
    | .error e => .error e
    | .ok acc' => vizLoop g selected visible maxDist rest acc'

/-- The rendering payload of `create_pydot_viz`: retained nodes, their
styling rows, and the edges of `G.subgraph(node_list)` (the dot string is
assembled verbatim from these). -/
structure VizResult where
  nodeList : List String
  nodeFmts : List (String × Attrs)
  edges : List (String × String)
deriving DecidableEq, Repr

/-- `create_pydot_viz(G, selected_node, visible_node_types,
max_node_distance)`. -/
def create_pydot_viz (g : DGraph) (selected : String) (visible : List String)
    (maxDist : Int) : Except NXErr VizResult :=
  match vizLoop g selected visible maxDist g.nodeList ⟨[], []⟩ with
  | .error e => .error e
  | .ok acc =>
    .ok ⟨acc.nodeList, acc.nodeFmts, (subgraph g acc.nodeList).edgeList⟩

instance {ε α : Type} [DecidableEq ε] [DecidableEq α] :
    DecidableEq (Except ε α) := fun a b =>
  match a, b with
  | .ok x, .ok y =>
    if h : x = y then .isTrue (by rw [h])
    else .isFalse (fun hc => h (by cases hc; rfl))
  | .error x, .error y =>
    if h : x = y then .isTrue (by rw [h])
    else .isFalse (fun hc => h (by cases hc; rfl))
  | .ok _, .error _ => .isFalse (fun hc => by cases hc)
  | .error _, .ok _ => .isFalse (fun hc => by cases hc)

/-! ## Supporting lemmas -/

theorem mem_descendantsList {g : DGraph} {n v : String} :
    v ∈ descendantsList g n ↔
      v ∈ g.nodeList ∧ v ≠ n ∧ ∃ j, Walk (edgeFinset g) n v j := by
  rw [descendantsList, List.mem_filter]
  simp only [Bool.and_eq_true, decide_eq_true_iff, mem_reachSet]
  tauto

theorem mem_ancestorsList {g : DGraph} {n v : String} :
    v ∈ ancestorsList g n ↔
      v ∈ g.nodeList ∧ v ≠ n ∧ ∃ j, Walk (edgeFinset g) v n j := by
  rw [ancestorsList, List.mem_filter]
  simp only [Bool.and_eq_true, decide_eq_true_iff, mem_reachSet]
  constructor
  · rintro ⟨hv, ⟨j, hw⟩, hne⟩
    exact ⟨hv, hne, j, walk_eswap_iff.mp hw⟩
  · rintro ⟨hv, hne, j, hw⟩
    exact ⟨hv, ⟨j, walk_eswap_iff.mpr hw⟩, hne⟩

theorem mem_nodeList_of_walk_src {g : DGraph} (hwf : g.Wf) {s t : String}
    {j : Nat} (hw : Walk (edgeFinset g) s t j) (hne : s ≠ t) :
    s ∈ g.nodeList := by
  cases hw with
  | nil => exact absurd rfl hne
  | cons he _ =>
    have : _ ∈ g.edgeList := List.mem_toFinset.mp he
    exact (hwf.1 _ this).1

theorem mem_nodeList_of_walk_tgt {g : DGraph} (hwf : g.Wf) {s t : String}
    {j : Nat} (hw : Walk (edgeFinset g) s t j) (hne : s ≠ t) :
    t ∈ g.nodeList := by
  cases j with
  | zero => exact absurd (walk_zero_iff.mp hw) hne
  | succ m =>
    obtain ⟨u, _, hut⟩ := walk_last_edge hw
    have : _ ∈ g.edgeList := List.mem_toFinset.mp hut
    exact (hwf.1 _ this).2

theorem relFold_ok {dist : String → Option Nat} (rel : String) :
    ∀ {ts : List String} (data : List (String × RelRow)),
      (∀ t ∈ ts, (dist t).isSome) →
      ∃ out, relFold dist rel ts data = .ok out := by
  intro ts
  induction ts with
  | nil => intro data _; exact ⟨data, rfl⟩
  | cons t ts ih =>
    intro data h
    have ht : (dist t).isSome := h t (List.mem_cons_self t ts)
    cases hd : dist t with
    | none => rw [hd] at ht; simp at ht
    | some k =>
      simp only [relFold, hd]
      exact ih _ (fun u hu => h u (List.mem_cons_of_mem t hu))

theorem relFold_lookup_miss {dist : String → Option Nat} {rel : String} :
    ∀ {ts : List String} {data out : List (String × RelRow)} {x : String},
      x ∉ ts → relFold dist rel ts data = .ok out →
      alookup out x = alookup data x := by
  intro ts
  induction ts with
  | nil =>
    intro data out x _ h
    cases h; rfl
  | cons t ts ih =>
    intro data out x hx h
    have hxt : x ≠ t := fun he => hx (he ▸ List.mem_cons_self t ts)
    have hxts : x ∉ ts := fun he => hx (List.mem_cons_of_mem t he)
    cases hd : dist t with
    | none => rw [relFold, hd] at h; cases h
    | some k =>
      rw [relFold, hd] at h
      rw [ih hxts h, alookup_dictInsert_ne _ _ _ _ hxt]

theorem relFold_lookup_hit {dist : String → Option Nat} {rel : String} :
    ∀ {ts : List String} {data out : List (String × RelRow)} {x : String},
      x ∈ ts → relFold dist rel ts data = .ok out →
      ∃ k, dist x = some k ∧ alookup out x = some ⟨k, rel⟩ := by
  intro ts
  induction ts with
  | nil => intro data out x hx; exact absurd hx (List.not_mem_nil x)
  | cons t ts ih =>
    intro data out x hx h
    cases hd : dist t with
    | none => rw [relFold, hd] at h; cases h
    | some k =>
      rw [relFold, hd] at h
      by_cases hxts : x ∈ ts
      · exact ih hxts h
      · have hxt : x = t := by
          rcases List.mem_cons.mp hx with h' | h'
          · exact h'
          · exact absurd h' hxts
        subst hxt
        rw [relFold_lookup_miss hxts h, alookup_dictInsert_self]
        exact ⟨k, hd, rfl⟩

/-- Master description of `get_relations_df` on a present node: the
dictionary holds an ancestor row for every ancestor not overwritten by the
descendant loop, a descendant row for every descendant, and nothing
else. -/
theorem get_relations_df_spec {g : DGraph} {n : String}
    (hn : n ∈ g.nodeList) :
    ∃ rows, get_relations_df g n = .ok rows ∧
      (∀ a ∈ ancestorsList g n, a ∉ descendantsList g n →
        ∃ d, distOpt (edgeFinset g) a n = some d ∧
          alookup rows a = some ⟨d, "ancestor"⟩) ∧
      (∀ v ∈ descendantsList g n,
        ∃ d, distOpt (edgeFinset g) n v = some d ∧
          alookup rows v = some ⟨d, "descendant"⟩) ∧
      (∀ x, x ∉ ancestorsList g n → x ∉ descendantsList g n →
        alookup rows x = none) := by
  have hancOk : ∀ a ∈ ancestorsList g n,
      ((fun a => distOpt (edgeFinset g) a n) a).isSome := by
    intro a ha
    obtain ⟨_, _, j, hw⟩ := mem_ancestorsList.mp ha
    exact distOpt_isSome_of_walk hw
  have hdescOk : ∀ v ∈ descendantsList g n,
      ((fun t => distOpt (edgeFinset g) n t) v).isSome := by
    intro v hv
    obtain ⟨_, _, j, hw⟩ := mem_descendantsList.mp hv
    exact distOpt_isSome_of_walk hw
  obtain ⟨d1, hd1⟩ := relFold_ok "ancestor" ([] : List (String × RelRow)) hancOk
  obtain ⟨rows, hrows⟩ := relFold_ok "descendant" d1 hdescOk
  refine ⟨rows, ?_, ?_, ?_, ?_⟩
  · rw [get_relations_df, if_pos hn, hd1]
    exact hrows
  · intro a ha hnd
    obtain ⟨d, hdist, hlk⟩ := relFold_lookup_hit ha hd1
    refine ⟨d, hdist, ?_⟩
    rw [relFold_lookup_miss hnd hrows, hlk]
  · intro v hv
    obtain ⟨d, hdist, hlk⟩ := relFold_lookup_hit hv hrows
    exact ⟨d, hdist, hlk⟩
  · intro x hxa hxd
    rw [relFold_lookup_miss hxd hrows, relFold_lookup_miss hxa hd1]
    rfl

theorem mem_ancestorsList_of_isAncestor {g : DGraph} {n v : String}
    (hwf : g.Wf) (h : IsAncestor g v n) : v ∈ ancestorsList g n := by
  obtain ⟨hne, j, hw⟩ := h
  exact mem_ancestorsList.mpr ⟨mem_nodeList_of_walk_src hwf hw hne, hne, j, hw⟩

theorem mem_descendantsList_of_isDescendant {g : DGraph} {n v : String}
    (hwf : g.Wf) (h : IsDescendant g v n) : v ∈ descendantsList g n := by
  obtain ⟨hne, j, hw⟩ := h
  exact mem_descendantsList.mpr
    ⟨mem_nodeList_of_walk_tgt hwf hw (Ne.symm hne), hne, j, hw⟩

theorem isDescendant_of_mem_descendantsList {g : DGraph} {n v : String}
    (h : v ∈ descendantsList g n) : IsDescendant g v n := by
  obtain ⟨_, hne, j, hw⟩ := mem_descendantsList.mp h
  exact ⟨hne, j, hw⟩

theorem isAncestor_of_mem_ancestorsList {g : DGraph} {n v : String}
    (h : v ∈ ancestorsList g n) : IsAncestor g v n := by
  obtain ⟨_, hne, j, hw⟩ := mem_ancestorsList.mp h
  exact ⟨hne, j, hw⟩

/-! ## Concrete graphs used by witnesses and counterexamples -/

/-- A two-node directed cycle `a ⇄ b`. -/
def gCyc : DGraph :=
  ⟨["a", "b"], [("a", []), ("b", [])], [("a", "b"), ("b", "a")]⟩

/-- A three-node directed cycle `a → b → c → a`. -/
def gTri : DGraph :=
  ⟨["a", "b", "c"], [("a", []), ("b", []), ("c", [])],
   [("a", "b"), ("b", "c"), ("c", "a")]⟩

/-- The spec's four-node chain `a → b → c → d`. -/
def gChain : DGraph :=
  ⟨["a", "b", "c", "d"],
   [("a", []), ("b", []), ("c", []), ("d", [])],
   [("a", "b"), ("b", "c"), ("c", "d")]⟩

/-! ## Claims -/

/-- **C1** (counterexample): on the two-node cycle `a ⇄ b`, node `b` is an
ancestor of `a`, but its entry in `get_relations_df(G, "a")` carries
relationship `"descendant"` (the descendant loop overwrote it), so the
claim's ancestor clause fails on cyclic graphs. -/
theorem claim_C1_counterexample :
    ¬ (∀ rows, get_relations_df gCyc "a" = .ok rows →
        ∀ a, IsAncestor gCyc a "a" →
          ∃ d, alookup rows a = some ⟨d, "ancestor"⟩ ∧
            IsShortestPathLen (edgeFinset gCyc) a "a" d) := by
  intro h
  have hrows : get_relations_df gCyc "a" =
      .ok [("b", ⟨1, "descendant"⟩)] := by decide
  have hanc : IsAncestor gCyc "b" "a" :=
    ⟨by decide, 1,
      Walk.cons (show ("b", "a") ∈ edgeFinset gCyc by decide) (Walk.nil "a")⟩
  obtain ⟨d, hlk, _⟩ := h _ hrows "b" hanc
  have hl : alookup [("b", (⟨1, "descendant"⟩ : RelRow))] "b" =
      some ⟨1, "descendant"⟩ := by decide
  rw [hl] at hlk
  have hrel : (⟨1, "descendant"⟩ : RelRow) = ⟨d, "ancestor"⟩ :=
    Option.some.inj hlk
  have hs : ("descendant" : String) = "ancestor" :=
    congrArg RelRow.relationship hrel
  exact absurd hs (by decide)

/-- **C1** (amended): for a wellformed graph and a node `n` in it,
`get_relations_df` succeeds; every ancestor that is not also a descendant
gets an entry with the shortest directed path length to `n` and
relationship `"ancestor"`; every descendant gets an entry with the
shortest directed path length from `n` and relationship `"descendant"`;
and `n` itself never appears.  (The original claim's ancestor clause
additionally covered nodes that are both, which the descendant loop
overwrites — see C8.) -/
theorem claim_C1_amended (g : DGraph) (hwf : g.Wf) (n : String)
    (hn : n ∈ g.nodeList) :
    ∃ rows, get_relations_df g n = .ok rows ∧
      (∀ a, IsAncestor g a n → ¬ IsDescendant g a n →
        ∃ d, alookup rows a = some ⟨d, "ancestor"⟩ ∧
          IsShortestPathLen (edgeFinset g) a n d) ∧
      (∀ v, IsDescendant g v n →
        ∃ d, alookup rows v = some ⟨d, "descendant"⟩ ∧
          IsShortestPathLen (edgeFinset g) n v d) ∧
      alookup rows n = none := by
  obtain ⟨rows, hok, hanc, hdesc, hmiss⟩ := get_relations_df_spec hn
  refine ⟨rows, hok, ?_, ?_, ?_⟩
  · intro a ha hnd
    have ha' : a ∈ ancestorsList g n := mem_ancestorsList_of_isAncestor hwf ha
    have hnd' : a ∉ descendantsList g n :=
      fun hmem => hnd (isDescendant_of_mem_descendantsList hmem)
    obtain ⟨d, hdist, hlk⟩ := hanc a ha' hnd'
    exact ⟨d, hlk, distOpt_shortest hdist⟩
  · intro v hv
    have hv' : v ∈ descendantsList g n :=
      mem_descendantsList_of_isDescendant hwf hv
    obtain ⟨d, hdist, hlk⟩ := hdesc v hv'
    exact ⟨d, hlk, distOpt_shortest hdist⟩
  · refine hmiss n (fun hmem => ?_) (fun hmem => ?_)
    · exact absurd rfl (mem_ancestorsList.mp hmem).2.1
    · exact absurd rfl (mem_descendantsList.mp hmem).2.1

/-- Witness for C1 (amended) on the spec's chain `a → b → c → d` at
node `b`. -/
theorem claim_C1_amended_witness :
    gChain.Wf ∧ "b" ∈ gChain.nodeList ∧
      (∃ rows, get_relations_df gChain "b" = .ok rows ∧
        (∀ a, IsAncestor gChain a "b" → ¬ IsDescendant gChain a "b" →
          ∃ d, alookup rows a = some ⟨d, "ancestor"⟩ ∧
            IsShortestPathLen (edgeFinset gChain) a "b" d) ∧
        (∀ v, IsDescendant gChain v "b" →
          ∃ d, alookup rows v = some ⟨d, "descendant"⟩ ∧
            IsShortestPathLen (edgeFinset gChain) "b" v d) ∧
        alookup rows "b" = none) :=
  ⟨by decide, by decide, claim_C1_amended gChain (by decide) "b" (by decide)⟩

/-- **C8**: a node that is both an ancestor and a descendant of `n` (only
possible with a cycle) ends up with a `"descendant"` row carrying the
descendant-direction shortest distance, because the descendant loop runs
after the ancestor loop and overwrites. -/
theorem claim_C8 (g : DGraph) (hwf : g.Wf) (n v : String)
    (hn : n ∈ g.nodeList) (_hanc : IsAncestor g v n)
    (hdesc : IsDescendant g v n) :
    ∃ rows d, get_relations_df g n = .ok rows ∧
      alookup rows v = some ⟨d, "descendant"⟩ ∧
      IsShortestPathLen (edgeFinset g) n v d := by
  obtain ⟨rows, hok, _, hdescSpec, _⟩ := get_relations_df_spec hn
  obtain ⟨d, hdist, hlk⟩ :=
    hdescSpec v (mem_descendantsList_of_isDescendant hwf hdesc)
  exact ⟨rows, d, hok, hlk, distOpt_shortest hdist⟩

/-- Witness for C8 on the three-cycle `a → b → c → a`: `b` is both an
ancestor (via `b → c → a`) and a descendant (via `a → b`) of `a`. -/
theorem claim_C8_witness :
    gTri.Wf ∧ "a" ∈ gTri.nodeList ∧ IsAncestor gTri "b" "a" ∧
      IsDescendant gTri "b" "a" ∧
      (∃ rows d, get_relations_df gTri "a" = .ok rows ∧
        alookup rows "b" = some ⟨d, "descendant"⟩ ∧
        IsShortestPathLen (edgeFinset gTri) "a" "b" d) := by
  have hanc : IsAncestor gTri "b" "a" :=
    ⟨by decide, 2,
      Walk.cons (show ("b", "c") ∈ edgeFinset gTri by decide)
        (Walk.cons (show ("c", "a") ∈ edgeFinset gTri by decide)
          (Walk.nil "a"))⟩
  have hdesc : IsDescendant gTri "b" "a" :=
    ⟨by decide, 1,
      Walk.cons (show ("a", "b") ∈ edgeFinset gTri by decide)
        (Walk.nil "b")⟩
  exact ⟨by decide, by decide, hanc, hdesc,
    claim_C8 gTri (by decide) "a" "b" (by decide) hanc hdesc⟩

/-- **C7**: `extract_node_graph` and `get_relations_df` fail with
`NodeNotFoundError` exactly when the requested node is absent, and
succeed exactly when it is present. -/
theorem claim_C7 (g : DGraph) (n : String) :
    ((extract_node_graph g n).isOk = true ↔ n ∈ g.nodeList) ∧
    ((get_relations_df g n).isOk = true ↔ n ∈ g.nodeList) ∧
    (extract_node_graph g n = .error .nodeNotFound ↔ n ∉ g.nodeList) ∧
    (get_relations_df g n = .error .nodeNotFound ↔ n ∉ g.nodeList) := by
  by_cases hn : n ∈ g.nodeList
  · obtain ⟨rows, hok, _⟩ := get_relations_df_spec hn
    refine ⟨?_, ?_, ?_, ?_⟩
    · rw [extract_node_graph, if_pos hn]
      simp [Except.isOk, Except.toBool, hn]
    · rw [hok]
      simp [Except.isOk, Except.toBool, hn]
    · rw [extract_node_graph, if_pos hn]
      constructor
      · intro h; cases h
      · intro h; exact absurd hn h
    · rw [hok]
      constructor
      · intro h; cases h
      · intro h; exact absurd hn h
  · refine ⟨?_, ?_, ?_, ?_⟩
    · rw [extract_node_graph, if_neg hn]
      simp [Except.isOk, Except.toBool, hn]
    · rw [get_relations_df, if_neg hn]
      simp [Except.isOk, Except.toBool, hn]
    · rw [extract_node_graph, if_neg hn]
      simp [hn]
    · rw [get_relations_df, if_neg hn]
      simp [hn]

/-- **C9**: `extract_data_graph` and `extract_node_graph` only read the
graph (`subgraph` builds a fresh view), so the graph after either call has
exactly the node list, edge list and attributes it had before. -/
theorem claim_C9 (g : DGraph) (n : String) :
    (extract_data_graph_run g).2.nodeList = g.nodeList ∧
    (extract_data_graph_run g).2.edgeList = g.edgeList ∧
    (extract_data_graph_run g).2.attrs = g.attrs ∧
    (extract_node_graph_run g n).2.nodeList = g.nodeList ∧
    (extract_node_graph_run g n).2.edgeList = g.edgeList ∧
    (extract_node_graph_run g n).2.attrs = g.attrs :=
  ⟨rfl, rfl, rfl, rfl, rfl, rfl⟩

theorem mem_subgraph_nodeList {g : DGraph} {ns : List String} {v : String} :
    v ∈ (subgraph g ns).nodeList ↔ v ∈ g.nodeList ∧ v ∈ ns := by
  rw [subgraph, List.mem_filter]
  simp

theorem mem_subgraph_edgeList {g : DGraph} {ns : List String}
    {u v : String} :
    (u, v) ∈ (subgraph g ns).edgeList ↔
      (u, v) ∈ g.edgeList ∧ u ∈ ns ∧ v ∈ ns := by
  rw [subgraph, List.mem_filter]
  simp

/-- The membership characterisation of `[node] + ancestors + descendants`
over a wellformed graph. -/
theorem mem_selected_iff {g : DGraph} {n v : String} (hwf : g.Wf) :
    (v ∈ n :: (ancestorsList g n ++ descendantsList g n)) ↔
      (v = n ∨ IsAncestor g v n ∨ IsDescendant g v n) := by
  rw [List.mem_cons, List.mem_append]
  constructor
  · rintro (h | h | h)
    · exact Or.inl h
    · exact Or.inr (Or.inl (isAncestor_of_mem_ancestorsList h))
    · exact Or.inr (Or.inr (isDescendant_of_mem_descendantsList h))
  · rintro (h | h | h)
    · exact Or.inl h
    · exact Or.inr (Or.inl (mem_ancestorsList_of_isAncestor hwf h))
    · exact Or.inr (Or.inr (mem_descendantsList_of_isDescendant hwf h))

theorem selected_mem_nodeList {g : DGraph} {n v : String} (hwf : g.Wf)
    (hn : n ∈ g.nodeList)
    (h : v = n ∨ IsAncestor g v n ∨ IsDescendant g v n) :
    v ∈ g.nodeList := by
  rcases h with rfl | ⟨hne, j, hw⟩ | ⟨hne, j, hw⟩
  · exact hn
  · exact mem_nodeList_of_walk_src hwf hw hne
  · exact mem_nodeList_of_walk_tgt hwf hw (Ne.symm hne)

/-- **C2**: for a wellformed graph and a present node, `extract_node_graph`
returns exactly the induced subgraph over the selected node, its
ancestors (nodes with a directed path to it) and its descendants (nodes
reachable from it); in particular every node reachable from the selected
node is in its node set. -/
theorem claim_C2 (g : DGraph) (hwf : g.Wf) (n : String)
    (hn : n ∈ g.nodeList) :
    ∃ H, extract_node_graph g n = .ok H ∧
      (∀ v, v ∈ H.nodeList ↔ (v = n ∨ IsAncestor g v n ∨ IsDescendant g v n)) ∧
      (∀ u v, (u, v) ∈ H.edgeList ↔
        ((u, v) ∈ g.edgeList ∧
          (u = n ∨ IsAncestor g u n ∨ IsDescendant g u n) ∧
          (v = n ∨ IsAncestor g v n ∨ IsDescendant g v n))) := by
  refine ⟨subgraph g (n :: (ancestorsList g n ++ descendantsList g n)),
    by rw [extract_node_graph, if_pos hn], ?_, ?_⟩
  · intro v
    rw [mem_subgraph_nodeList, ← mem_selected_iff hwf]
    constructor
    · exact And.right
    · intro h
      exact ⟨selected_mem_nodeList hwf hn ((mem_selected_iff hwf).mp h), h⟩
  · intro u v
    rw [mem_subgraph_edgeList, mem_selected_iff hwf,
      mem_selected_iff hwf]

/-- Witness for C2 on the chain `a → b → c → d` at node `b`. -/
theorem claim_C2_witness :
    gChain.Wf ∧ "b" ∈ gChain.nodeList ∧
      (∃ H, extract_node_graph gChain "b" = .ok H ∧
        (∀ v, v ∈ H.nodeList ↔
          (v = "b" ∨ IsAncestor gChain v "b" ∨ IsDescendant gChain v "b")) ∧
        (∀ u v, (u, v) ∈ H.edgeList ↔
          ((u, v) ∈ gChain.edgeList ∧
            (u = "b" ∨ IsAncestor gChain u "b" ∨ IsDescendant gChain u "b") ∧
            (v = "b" ∨ IsAncestor gChain v "b" ∨
              IsDescendant gChain v "b")))) :=
  ⟨by decide, by decide, claim_C2 gChain (by decide) "b" (by decide)⟩

/-! ## Lemmas on the `create_pydot_viz` loop -/

/-- An `ok` step of the visualization loop either skips the node or
appends it, with the green fill override exactly when it is the selected
node. -/
theorem vizStep_ok_cases {g : DGraph} {sel : String} {vis : List String}
    {maxD : Int} {acc acc' : VizAcc} {n : String}
    (h : vizStep g sel vis maxD acc n = .ok acc') :
    acc' = acc ∨
      ∃ fmt2, acc' = ⟨acc.nodeList ++ [n], acc.nodeFmts ++ [(n, fmt2)]⟩ ∧
        (n = sel → alookup fmt2 "fillcolor" = some "green") := by
  rw [vizStep] at h
  cases hd : vizDist (edgeFinset g) sel n with
  | error e => rw [hd] at h; cases h
  | ok dist =>
    rw [hd] at h
    simp only at h
    by_cases hc : (decide ((dist : Int) > maxD) ||
        !(match alookup (nodeData g n) "resource_type" with
          | some s => vis.contains s
          | none => false)) = true
    · rw [if_pos hc] at h
      cases h
      exact Or.inl rfl
    · rw [if_neg hc] at h
      cases hf : (match alookup (nodeData g n) "resource_type" with
        | some s => alookup node_fmt s
        | none => none) with
      | none => rw [hf] at h; cases h
      | some fmt =>
        rw [hf] at h
        cases h
        refine Or.inr ⟨_, rfl, fun hn => ?_⟩
        rw [if_pos hn]
        exact alookup_dictInsert_self _ _ _

/-- If some listed node's step raises (independently of the accumulator),
the whole loop raises. -/
theorem vizLoop_error_of_mem {g : DGraph} {sel : String} {vis : List String}
    {maxD : Int} {n : String} {e : NXErr}
    (herr : ∀ acc, vizStep g sel vis maxD acc n = .error e) :
    ∀ {l : List String}, n ∈ l → ∀ acc,
      ∃ e', vizLoop g sel vis maxD l acc = .error e' := by
  intro l
  induction l with
  | nil => intro h; exact absurd h (List.not_mem_nil n)
  | cons m rest ih =>
    intro hmem acc
    cases hs : vizStep g sel vis maxD acc m with
    | error e'' =>
      refine ⟨e'', ?_⟩
      rw [vizLoop, hs]
    | ok acc' =>
      by_cases hnm : n = m
      · subst hnm
        rw [herr acc] at hs
        cases hs
      · have hrest : n ∈ rest := by
          rcases List.mem_cons.mp hmem with h | h
          · exact absurd h hnm
          · exact h
        obtain ⟨e', he'⟩ := ih hrest acc'
        refine ⟨e', ?_⟩
        rw [vizLoop, hs]
        exact he'

/-- **C10**: when the graph contains a node with no directed path to the
selected node in either direction, `create_pydot_viz` raises instead of
returning a rendering payload: the reverse-direction fallback of the
distance lookup is unguarded. -/
theorem claim_C10 (g : DGraph) (sel n : String) (visible : List String)
    (maxD : Int) (hn : n ∈ g.nodeList)
    (hfwd : ∀ j, ¬ Walk (edgeFinset g) n sel j)
    (hbwd : ∀ j, ¬ Walk (edgeFinset g) sel n j) :
    ∃ e, create_pydot_viz g sel visible maxD = .error e := by
  have hd1 : distOpt (edgeFinset g) n sel = none := distOpt_none_iff.mpr hfwd
  have hd2 : distOpt (edgeFinset g) sel n = none := distOpt_none_iff.mpr hbwd
  have hstep : ∀ acc, vizStep g sel visible maxD acc n = .error .noPath := by
    intro acc
    rw [vizStep, vizDist, hd1, hd2]
  obtain ⟨e', he'⟩ := vizLoop_error_of_mem hstep hn ⟨[], []⟩
  refine ⟨e', ?_⟩
  rw [create_pydot_viz, he']

/-- An unconnected two-node graph: no path between `a` and `b` in either
direction. -/
def gDisc : DGraph :=
  ⟨["a", "b"],
   [("a", [("resource_type", "model"), ("name", "a")]),
    ("b", [("resource_type", "model"), ("name", "b")])],
   []⟩

/-- Witness for C10 on the unconnected graph with selected node `a` and
disconnected node `b`. -/
theorem claim_C10_witness :
    "b" ∈ gDisc.nodeList ∧
      (∀ j, ¬ Walk (edgeFinset gDisc) "b" "a" j) ∧
      (∀ j, ¬ Walk (edgeFinset gDisc) "a" "b" j) ∧
      (∃ e, create_pydot_viz gDisc "a" ["model"] 10 = .error e) := by
  have hfwd : ∀ j, ¬ Walk (edgeFinset gDisc) "b" "a" j :=
    distOpt_none_iff.mp (by decide)
  have hbwd : ∀ j, ¬ Walk (edgeFinset gDisc) "a" "b" j :=
    distOpt_none_iff.mp (by decide)
  exact ⟨by decide, hfwd, hbwd,
    claim_C10 gDisc "a" "b" ["model"] 10 (by decide) hfwd hbwd⟩

/-- A single-node graph whose node is a model. -/
def gSingle : DGraph :=
  ⟨["a"], [("a", [("resource_type", "model"), ("name", "a")])], []⟩

/-- **C6** (counterexample): with an allowed-resource-type set that does
not contain the selected node's type, the selected node is filtered out
like any other node, so it is not always retained. -/
theorem claim_C6_counterexample :
    create_pydot_viz gSingle "a" [] 10 = .ok ⟨[], [], []⟩ ∧
      "a" ∉ (VizResult.mk [] [] []).nodeList := by
  constructor
  · decide
  · decide

/-- Every styling row the loop stores under the selected node's key has
the green fill override. -/
def SelGreen (sel : String) (acc : VizAcc) : Prop :=
  ∀ f, alookup acc.nodeFmts sel = some f →
    alookup f "fillcolor" = some "green"

theorem vizStep_preserves {g : DGraph} {sel : String} {vis : List String}
    {maxD : Int} {acc acc' : VizAcc} {n : String}
    (h : vizStep g sel vis maxD acc n = .ok acc') :
    (sel ∈ acc.nodeList → sel ∈ acc'.nodeList) ∧
    ((alookup acc.nodeFmts sel).isSome → (alookup acc'.nodeFmts sel).isSome) ∧
    (SelGreen sel acc → SelGreen sel acc') := by
  rcases vizStep_ok_cases h with rfl | ⟨fmt2, rfl, hgreen⟩
  · exact ⟨id, id, id⟩
  · refine ⟨fun hm => List.mem_append_left _ hm, ?_, ?_⟩
    · intro hsome
      cases halo : alookup acc.nodeFmts sel with
      | none => rw [halo] at hsome; simp at hsome
      | some f =>
        have : alookup (acc.nodeFmts ++ [(n, fmt2)]) sel = some f := by
          rw [alookup_append, halo]
        rw [this]; rfl
    · intro hold f hf
      rw [alookup_append] at hf
      cases halo : alookup acc.nodeFmts sel with
      | some v =>
        rw [halo] at hf
        simp only at hf
        rw [← Option.some.inj hf]
        exact hold v halo
      | none =>
        rw [halo] at hf
        simp only [alookup] at hf
        by_cases hns : n = sel
        · rw [if_pos hns] at hf
          rw [← Option.some.inj hf]
          exact hgreen hns
        · rw [if_neg hns] at hf
          cases hf

theorem vizLoop_preserve {g : DGraph} {sel : String} {vis : List String}
    {maxD : Int} :
    ∀ {l : List String} {acc out : VizAcc},
      vizLoop g sel vis maxD l acc = .ok out →
      sel ∈ acc.nodeList → (alookup acc.nodeFmts sel).isSome →
      SelGreen sel acc →
      sel ∈ out.nodeList ∧ (alookup out.nodeFmts sel).isSome ∧
        SelGreen sel out := by
  intro l
  induction l with
  | nil =>
    intro acc out h h1 h2 h3
    cases h
    exact ⟨h1, h2, h3⟩
  | cons m rest ih =>
    intro acc out h h1 h2 h3
    rw [vizLoop] at h
    cases hs : vizStep g sel vis maxD acc m with
    | error e => rw [hs] at h; cases h
    | ok acc' =>
      rw [hs] at h
      obtain ⟨p1, p2, p3⟩ := vizStep_preserves hs
      exact ih h (p1 h1) (p2 h2) (p3 h3)

theorem vizStep_sel {g : DGraph} {sel : String} {vis : List String}
    {maxD : Int} {acc acc' : VizAcc} {s : String}
    (hrts : alookup (nodeData g sel) "resource_type" = some s)
    (hs : s ∈ vis) (hmd : 0 ≤ maxD)
    (h : vizStep g sel vis maxD acc sel = .ok acc') :
    sel ∈ acc'.nodeList ∧ (alookup acc'.nodeFmts sel).isSome ∧
      (SelGreen sel acc → SelGreen sel acc') := by
  have hvd : vizDist (edgeFinset g) sel sel = .ok 0 := by
    rw [vizDist, distOpt_self]
  have hcontains : vis.contains s = true := List.elem_eq_true_of_mem hs
  have hnotgt : ¬ ((0 : Nat) : Int) > maxD := by
    simp only [Int.natCast_zero, gt_iff_lt, not_lt]
    exact hmd
  rw [vizStep, hvd] at h
  simp only [hrts, hcontains, decide_eq_false hnotgt, Bool.false_or,
    Bool.not_true, Bool.or_false, if_neg (Bool.false_ne_true)] at h
  cases hf : alookup node_fmt s with
  | none => rw [hf] at h; cases h
  | some fmt =>
    rw [hf] at h
    simp only [if_pos rfl] at h
    cases h
    refine ⟨List.mem_append_right _ (List.mem_singleton.mpr rfl), ?_, ?_⟩
    · rw [alookup_append]
      cases halo : alookup acc.nodeFmts sel with
      | some v => rfl
      | none => simp [alookup]
    · intro hold f hfe
      rw [alookup_append] at hfe
      cases halo : alookup acc.nodeFmts sel with
      | some v =>
        rw [halo] at hfe
        simp only at hfe
        rw [← Option.some.inj hfe]
        exact hold v halo
      | none =>
        rw [halo] at hfe
        simp only [alookup, eq_self_iff_true, if_true] at hfe
        rw [← Option.some.inj hfe]
        exact alookup_dictInsert_self _ _ _

theorem vizLoop_green {g : DGraph} {sel : String} {vis : List String}
    {maxD : Int} {s : String}
    (hrts : alookup (nodeData g sel) "resource_type" = some s)
    (hs : s ∈ vis) (hmd : 0 ≤ maxD) :
    ∀ {l : List String} {acc out : VizAcc},
      vizLoop g sel vis maxD l acc = .ok out → sel ∈ l → SelGreen sel acc →
      sel ∈ out.nodeList ∧ ∃ f, alookup out.nodeFmts sel = some f ∧
        alookup f "fillcolor" = some "green" := by
  intro l
  induction l with
  | nil =>
    intro acc out _ hmem
    exact absurd hmem (List.not_mem_nil sel)
  | cons m rest ih =>
    intro acc out h hmem hgr
    rw [vizLoop] at h
    cases hst : vizStep g sel vis maxD acc m with
    | error e => rw [hst] at h; cases h
    | ok acc' =>
      rw [hst] at h
      by_cases hms : m = sel
      · subst hms
        obtain ⟨q1, q2, q3⟩ := vizStep_sel hrts hs hmd hst
        obtain ⟨r1, r2, r3⟩ := vizLoop_preserve h q1 q2 (q3 hgr)
        obtain ⟨f, hfe⟩ := Option.isSome_iff_exists.mp r2
        exact ⟨r1, f, hfe, r3 f hfe⟩
      · have hrest : sel ∈ rest := by
          rcases List.mem_cons.mp hmem with h' | h'
          · exact absurd h'.symm hms
          · exact h'
        obtain ⟨_, _, p3⟩ := vizStep_preserves hst
        exact ih h hrest (p3 hgr)

/-- **C6** (amended): whenever `create_pydot_viz` returns a payload, the
selected node is retained with the green fill override, provided its own
resource type is in the allowed set and the maximum distance is
non-negative — the original claim's "regardless of the allowed
resource-type set" fails, since the type filter applies to the selected
node too. -/
theorem claim_C6_amended (g : DGraph) (sel : String) (visible : List String)
    (maxD : Int) (r : VizResult) (hsel : sel ∈ g.nodeList)
    (hrt : ∃ s, resourceType g sel = some s ∧ s ∈ visible)
    (hmd : 0 ≤ maxD)
    (hok : create_pydot_viz g sel visible maxD = .ok r) :
    sel ∈ r.nodeList ∧
      ∃ f, alookup r.nodeFmts sel = some f ∧
        alookup f "fillcolor" = some "green" := by
  obtain ⟨s, hrts, hs⟩ := hrt
  rw [create_pydot_viz] at hok
  cases hl : vizLoop g sel visible maxD g.nodeList ⟨[], []⟩ with
  | error e => rw [hl] at hok; cases hok
  | ok acc =>
    rw [hl] at hok
    cases hok
    exact vizLoop_green hrts hs hmd hl hsel (fun f hf => by cases hf)

/-- Witness for C6 (amended) on the single-model graph with its type
visible. -/
theorem claim_C6_amended_witness :
    "a" ∈ gSingle.nodeList ∧
      (∃ s, resourceType gSingle "a" = some s ∧ s ∈ ["model"]) ∧
      (0 : Int) ≤ 10 ∧
      create_pydot_viz gSingle "a" ["model"] 10 =
        .ok ⟨["a"],
          [("a", [("shape", "box"), ("fillcolor", "green"),
            ("fontcolor", "black"), ("color", "black"), ("style", "filled"),
            ("label", "a")])], []⟩ ∧
      ("a" ∈ (VizResult.mk ["a"]
          [("a", [("shape", "box"), ("fillcolor", "green"),
            ("fontcolor", "black"), ("color", "black"), ("style", "filled"),
            ("label", "a")])] []).nodeList ∧
        ∃ f, alookup (VizResult.mk ["a"]
            [("a", [("shape", "box"), ("fillcolor", "green"),
              ("fontcolor", "black"), ("color", "black"),
              ("style", "filled"), ("label", "a")])] []).nodeFmts "a" =
            some f ∧ alookup f "fillcolor" = some "green") :=
  ⟨by decide, ⟨"model", by decide, by decide⟩, by decide, by decide,
    claim_C6_amended gSingle "a" ["model"] 10 _ (by decide)
      ⟨"model", by decide, by decide⟩ (by decide) (by decide)⟩

/-! ## Lemmas on the graph builder `read_graph` -/

theorem addEdgeNode_edgeList (g : DGraph) (n : String) :
    (addEdgeNode g n).edgeList = g.edgeList := by
  rw [addEdgeNode]; split <;> rfl

theorem mem_addEdgeNode_nodeList {g : DGraph} {n x : String} :
    x ∈ (addEdgeNode g n).nodeList ↔ x = n ∨ x ∈ g.nodeList := by
  rw [addEdgeNode]
  split
  · rename_i h
    constructor
    · exact Or.inr
    · rintro (rfl | hx)
      · exact h
      · exact hx
  · simp only [List.mem_append, List.mem_singleton]
    tauto

theorem addNode_edgeList (g : DGraph) (n : String) (d : Attrs) :
    (addNode g n d).edgeList = g.edgeList := by
  rw [addNode]; split <;> rfl

theorem mem_addNode_nodeList {g : DGraph} {n x : String} {d : Attrs} :
    x ∈ (addNode g n d).nodeList ↔ x = n ∨ x ∈ g.nodeList := by
  rw [addNode]
  split
  · rename_i h
    constructor
    · exact Or.inr
    · rintro (rfl | hx)
      · exact h
      · exact hx
  · simp only [List.mem_append, List.mem_singleton]
    tauto

theorem mem_addEdgeAux_edgeList {g : DGraph} {u v : String}
    {e : String × String} :
    e ∈ (addEdgeAux g u v).edgeList ↔ e = (u, v) ∨ e ∈ g.edgeList := by
  rw [addEdgeAux]
  split
  · rename_i h
    constructor
    · exact Or.inr
    · rintro (rfl | hx)
      · exact h
      · exact hx
  · simp only [List.mem_append, List.mem_singleton]
    tauto

theorem addEdgeAux_nodeList (g : DGraph) (u v : String) :
    (addEdgeAux g u v).nodeList = g.nodeList := by
  rw [addEdgeAux]; split <;> rfl

theorem addEdgeAux_attrs (g : DGraph) (u v : String) :
    (addEdgeAux g u v).attrs = g.attrs := by
  rw [addEdgeAux]; split <;> rfl

theorem mem_addEdge_edgeList {g : DGraph} {u v : String}
    {e : String × String} :
    e ∈ (addEdge g u v).edgeList ↔ e = (u, v) ∨ e ∈ g.edgeList := by
  rw [addEdge, mem_addEdgeAux_edgeList, addEdgeNode_edgeList,
    addEdgeNode_edgeList]

theorem mem_addEdge_nodeList {g : DGraph} {u v x : String} :
    x ∈ (addEdge g u v).nodeList ↔ x = u ∨ x = v ∨ x ∈ g.nodeList := by
  rw [addEdge, addEdgeAux_nodeList, mem_addEdgeNode_nodeList,
    mem_addEdgeNode_nodeList]
  tauto

theorem addEdge_edgeList_nodup {g : DGraph} {u v : String}
    (h : g.edgeList.Nodup) : (addEdge g u v).edgeList.Nodup := by
  rw [addEdge, addEdgeAux]
  rw [addEdgeNode_edgeList, addEdgeNode_edgeList]
  split
  · rw [addEdgeNode_edgeList, addEdgeNode_edgeList]
    exact h
  · rename_i hne
    show (g.edgeList ++ [(u, v)]).Nodup
    rw [List.nodup_append]
    exact ⟨h, List.nodup_singleton _,
      fun e he he' => hne ((List.mem_singleton.mp he') ▸ he)⟩

theorem edgeFold_mem_edgeList {e : String × String} :
    ∀ {l : List (String × String)} {g : DGraph},
      e ∈ ((l.foldl (fun g p => addEdge g p.1 p.2) g)).edgeList ↔
        e ∈ l ∨ e ∈ g.edgeList := by
  intro l
  induction l with
  | nil => intro g; simp
  | cons p rest ih =>
    intro g
    rw [List.foldl_cons, ih, mem_addEdge_edgeList, List.mem_cons]
    tauto

theorem edgeFold_mem_nodeList {x : String} :
    ∀ {l : List (String × String)} {g : DGraph},
      x ∈ ((l.foldl (fun g p => addEdge g p.1 p.2) g)).nodeList ↔
        (∃ p ∈ l, x = p.1 ∨ x = p.2) ∨ x ∈ g.nodeList := by
  intro l
  induction l with
  | nil => intro g; simp
  | cons p rest ih =>
    intro g
    rw [List.foldl_cons, ih, mem_addEdge_nodeList]
    constructor
    · rintro (⟨q, hq, hx⟩ | hx | hx | hx)
      · exact Or.inl ⟨q, List.mem_cons_of_mem p hq, hx⟩
      · exact Or.inl ⟨p, List.mem_cons_self p rest, Or.inl hx⟩
      · exact Or.inl ⟨p, List.mem_cons_self p rest, Or.inr hx⟩
      · exact Or.inr hx
    · rintro (⟨q, hq, hx⟩ | hx)
      · rcases List.mem_cons.mp hq with rfl | hq'
        · tauto
        · exact Or.inl ⟨q, hq', hx⟩
      · tauto

theorem edgeFold_nodup :
    ∀ {l : List (String × String)} {g : DGraph},
      g.edgeList.Nodup →
      ((l.foldl (fun g p => addEdge g p.1 p.2) g)).edgeList.Nodup := by
  intro l
  induction l with
  | nil => intro g h; exact h
  | cons p rest ih =>
    intro g h
    rw [List.foldl_cons]
    exact ih (addEdge_edgeList_nodup h)

theorem nodeFold_edgeList :
    ∀ {l : List (String × Attrs)} {g : DGraph},
      ((l.foldl (fun g kv => addNode g kv.1 kv.2) g)).edgeList = g.edgeList := by
  intro l
  induction l with
  | nil => intro g; rfl
  | cons kv rest ih =>
    intro g
    rw [List.foldl_cons, ih, addNode_edgeList]

theorem nodeFold_mem_nodeList {x : String} :
    ∀ {l : List (String × Attrs)} {g : DGraph},
      x ∈ ((l.foldl (fun g kv => addNode g kv.1 kv.2) g)).nodeList ↔
        (∃ kv ∈ l, x = kv.1) ∨ x ∈ g.nodeList := by
  intro l
  induction l with
  | nil => intro g; simp
  | cons kv rest ih =>
    intro g
    rw [List.foldl_cons, ih, mem_addNode_nodeList]
    constructor
    · rintro (⟨q, hq, hx⟩ | hx | hx)
      · exact Or.inl ⟨q, List.mem_cons_of_mem kv hq, hx⟩
      · exact Or.inl ⟨kv, List.mem_cons_self kv rest, hx⟩
      · exact Or.inr hx
    · rintro (⟨q, hq, hx⟩ | hx)
      · rcases List.mem_cons.mp hq with rfl | hq'
        · tauto
        · exact Or.inl ⟨q, hq', hx⟩
      · tauto

/-- The `child_map` entries flattened into directed edges key → child. -/
def childEdges (cm : List (String × List String)) : List (String × String) :=
  cm.flatMap (fun nc => nc.2.map (fun c => (nc.1, c)))

/-- The `parent_map` entries flattened into directed edges parent → key. -/
def parentEdges (pm : List (String × List String)) : List (String × String) :=
  pm.flatMap (fun np => np.2.map (fun p => (p, np.1)))

theorem childEdges_cons (nc : String × List String)
    (rest : List (String × List String)) :
    childEdges (nc :: rest) =
      nc.2.map (fun c => (nc.1, c)) ++ childEdges rest := by
  simp [childEdges]

theorem parentEdges_cons (np : String × List String)
    (rest : List (String × List String)) :
    parentEdges (np :: rest) =
      np.2.map (fun p => (p, np.1)) ++ parentEdges rest := by
  simp [parentEdges]

theorem childFold_eq_edgeFold :
    ∀ (cm : List (String × List String)) (g : DGraph),
      cm.foldl (fun g nc => nc.2.foldl (fun g c => addEdge g nc.1 c) g) g =
        (childEdges cm).foldl (fun g p => addEdge g p.1 p.2) g := by
  intro cm
  induction cm with
  | nil => intro g; rfl
  | cons nc rest ih =>
    intro g
    rw [List.foldl_cons, ih, childEdges_cons, List.foldl_append,
      List.foldl_map]

theorem parentFold_eq_edgeFold :
    ∀ (pm : List (String × List String)) (g : DGraph),
      pm.foldl (fun g np => np.2.foldl (fun g p => addEdge g p np.1) g) g =
        (parentEdges pm).foldl (fun g p => addEdge g p.1 p.2) g := by
  intro pm
  induction pm with
  | nil => intro g; rfl
  | cons np rest ih =>
    intro g
    rw [List.foldl_cons, ih, parentEdges_cons, List.foldl_append,
      List.foldl_map]

/-- `read_graph` with the two dependency folds flattened into edge
lists. -/
theorem read_graph_eq_flat (m : Manifest) :
    read_graph m =
      (parentEdges m.parent_map).foldl (fun g p => addEdge g p.1 p.2)
        ((childEdges m.child_map).foldl (fun g p => addEdge g p.1 p.2)
          ((m.exposures.foldl (fun g kv => addNode g kv.1 kv.2)
            (m.sources.foldl (fun g kv => addNode g kv.1 kv.2)
              (m.nodes.foldl (fun g kv => addNode g kv.1 kv.2)
                DGraph.empty))))) := by
  rw [read_graph, childFold_eq_edgeFold, parentFold_eq_edgeFold]

theorem read_graph_mem_edgeList {m : Manifest} {e : String × String} :
    e ∈ (read_graph m).edgeList ↔
      e ∈ childEdges m.child_map ∨ e ∈ parentEdges m.parent_map := by
  rw [read_graph_eq_flat, edgeFold_mem_edgeList, edgeFold_mem_edgeList,
    nodeFold_edgeList, nodeFold_edgeList, nodeFold_edgeList]
  show _ ↔ e ∈ childEdges m.child_map ∨ e ∈ parentEdges m.parent_map
  constructor
  · rintro (h | h | h)
    · exact Or.inr h
    · exact Or.inl h
    · cases h
  · tauto

theorem read_graph_mem_nodeList {m : Manifest} {x : String} :
    x ∈ (read_graph m).nodeList ↔
      (∃ kv ∈ m.nodes ++ m.sources ++ m.exposures, x = kv.1) ∨
      (∃ p ∈ childEdges m.child_map, x = p.1 ∨ x = p.2) ∨
      (∃ p ∈ parentEdges m.parent_map, x = p.1 ∨ x = p.2) := by
  rw [read_graph_eq_flat, edgeFold_mem_nodeList, edgeFold_mem_nodeList,
    nodeFold_mem_nodeList, nodeFold_mem_nodeList, nodeFold_mem_nodeList]
  show _ ↔ _
  constructor
  · rintro (h | h | h | h | h | h)
    · exact Or.inr (Or.inr h)
    · exact Or.inr (Or.inl h)
    · refine Or.inl ?_
      obtain ⟨kv, hkv, hx⟩ := h
      exact ⟨kv, by simp [hkv], hx⟩
    · refine Or.inl ?_
      obtain ⟨kv, hkv, hx⟩ := h
      exact ⟨kv, by simp [hkv], hx⟩
    · refine Or.inl ?_
      obtain ⟨kv, hkv, hx⟩ := h
      exact ⟨kv, by simp [hkv], hx⟩
    · cases h
  · rintro (⟨kv, hkv, hx⟩ | h | h)
    · rcases List.mem_append.mp hkv with h' | h'
      · rcases List.mem_append.mp h' with h'' | h''
        · exact Or.inr (Or.inr (Or.inr (Or.inr (Or.inl ⟨kv, h'', hx⟩))))
        · exact Or.inr (Or.inr (Or.inr (Or.inl ⟨kv, h'', hx⟩)))
      · exact Or.inr (Or.inr (Or.inl ⟨kv, h', hx⟩))
    · exact Or.inr (Or.inl h)
    · exact Or.inl h

theorem read_graph_edgeList_nodup (m : Manifest) :
    (read_graph m).edgeList.Nodup := by
  rw [read_graph_eq_flat]
  refine edgeFold_nodup (edgeFold_nodup ?_)
  rw [nodeFold_edgeList, nodeFold_edgeList, nodeFold_edgeList]
  exact List.nodup_nil

/-- **C3**: building from a manifest whose `parent_map` re-encodes exactly
the `child_map` edge set produces the same edge set, the same node set and
the same per-node degree as building from the manifest with the redundant
`parent_map` dropped, and the double insertion never duplicates an edge
(the edge list stays duplicate-free). -/
theorem claim_C3 (m : Manifest)
    (h : (parentEdges m.parent_map).toFinset =
      (childEdges m.child_map).toFinset) :
    edgeFinset (read_graph m) =
        edgeFinset (read_graph { m with parent_map := [] }) ∧
      nodeFinset (read_graph m) =
        nodeFinset (read_graph { m with parent_map := [] }) ∧
      (∀ u, degree (read_graph m) u =
        degree (read_graph { m with parent_map := [] }) u) ∧
      (read_graph m).edgeList.Nodup := by
  have hmem : ∀ p, p ∈ parentEdges m.parent_map ↔
      p ∈ childEdges m.child_map := by
    intro p
    rw [← List.mem_toFinset, h, List.mem_toFinset]
  have hedge : edgeFinset (read_graph m) =
      edgeFinset (read_graph { m with parent_map := [] }) := by
    apply Finset.ext
    intro e
    rw [edgeFinset, edgeFinset, List.mem_toFinset, List.mem_toFinset,
      read_graph_mem_edgeList, read_graph_mem_edgeList]
    show _ ∨ e ∈ parentEdges m.parent_map ↔ _ ∨ e ∈ parentEdges []
    rw [hmem e]
    simp [parentEdges]
  refine ⟨hedge, ?_, ?_, read_graph_edgeList_nodup m⟩
  · apply Finset.ext
    intro x
    rw [nodeFinset, nodeFinset, List.mem_toFinset, List.mem_toFinset,
      read_graph_mem_nodeList, read_graph_mem_nodeList]
    show _ ∨ _ ∨ (∃ p ∈ parentEdges m.parent_map, x = p.1 ∨ x = p.2) ↔
      _ ∨ _ ∨ (∃ p ∈ parentEdges [], x = p.1 ∨ x = p.2)
    constructor
    · rintro (h' | h' | ⟨p, hp, hx⟩)
      · exact Or.inl h'
      · exact Or.inr (Or.inl h')
      · exact Or.inr (Or.inl ⟨p, (hmem p).mp hp, hx⟩)
    · rintro (h' | h' | ⟨p, hp, hx⟩)
      · exact Or.inl h'
      · exact Or.inr (Or.inl h')
      · cases hp
  · intro u
    rw [degree, degree, hedge]

/-- The manifest `a → b` with the mirrored `parent_map`. -/
def mMirror : Manifest :=
  { nodes := [("a", [("resource_type", "model")]),
              ("b", [("resource_type", "model")])],
    sources := [], exposures := [],
    child_map := [("a", ["b"])],
    parent_map := [("b", ["a"])] }

/-- Witness for C3 on the mirrored one-edge manifest. -/
theorem claim_C3_witness :
    (parentEdges mMirror.parent_map).toFinset =
        (childEdges mMirror.child_map).toFinset ∧
      (edgeFinset (read_graph mMirror) =
          edgeFinset (read_graph { mMirror with parent_map := [] }) ∧
        nodeFinset (read_graph mMirror) =
          nodeFinset (read_graph { mMirror with parent_map := [] }) ∧
        (∀ u, degree (read_graph mMirror) u =
          degree (read_graph { mMirror with parent_map := [] }) u) ∧
        (read_graph mMirror).edgeList.Nodup) :=
  ⟨by decide, claim_C3 mMirror (by decide)⟩

/-! ## C4: metrics are insertion-order independent -/

theorem childEdges_mem_of_perm {cm cm' : List (String × List String)}
    (h : List.Perm cm cm') {p : String × String} :
    p ∈ childEdges cm ↔ p ∈ childEdges cm' := by
  rw [childEdges, childEdges, List.mem_flatMap, List.mem_flatMap]
  constructor
  · rintro ⟨nc, hnc, hp⟩
    exact ⟨nc, h.mem_iff.mp hnc, hp⟩
  · rintro ⟨nc, hnc, hp⟩
    exact ⟨nc, h.mem_iff.mpr hnc, hp⟩

theorem parentEdges_mem_of_perm {pm pm' : List (String × List String)}
    (h : List.Perm pm pm') {p : String × String} :
    p ∈ parentEdges pm ↔ p ∈ parentEdges pm' := by
  rw [parentEdges, parentEdges, List.mem_flatMap, List.mem_flatMap]
  constructor
  · rintro ⟨np, hnp, hp⟩
    exact ⟨np, h.mem_iff.mp hnp, hp⟩
  · rintro ⟨np, hnp, hp⟩
    exact ⟨np, h.mem_iff.mpr hnp, hp⟩

/-- **C4**: two graphs built from the same manifest content with entries
iterated in different orders yield identical degree, centrality and
clustering values for every node — the metrics depend only on the node
and edge sets, which are insertion-order independent. -/
theorem claim_C4 (m₁ m₂ : Manifest)
    (hn : List.Perm m₁.nodes m₂.nodes)
    (hs : List.Perm m₁.sources m₂.sources)
    (he : List.Perm m₁.exposures m₂.exposures)
    (hc : List.Perm m₁.child_map m₂.child_map)
    (hp : List.Perm m₁.parent_map m₂.parent_map) :
    ∀ u, analyze_data_graph (read_graph m₁) u =
      analyze_data_graph (read_graph m₂) u := by
  have hattr : List.Perm (m₁.nodes ++ m₁.sources ++ m₁.exposures)
      (m₂.nodes ++ m₂.sources ++ m₂.exposures) :=
    (hn.append hs).append he
  have hnode : nodeFinset (read_graph m₁) = nodeFinset (read_graph m₂) := by
    apply Finset.ext
    intro x
    rw [nodeFinset, nodeFinset, List.mem_toFinset, List.mem_toFinset,
      read_graph_mem_nodeList, read_graph_mem_nodeList]
    constructor
    · rintro (⟨kv, hkv, hx⟩ | ⟨p, hpm, hx⟩ | ⟨p, hpm, hx⟩)
      · exact Or.inl ⟨kv, hattr.mem_iff.mp hkv, hx⟩
      · exact Or.inr (Or.inl ⟨p, (childEdges_mem_of_perm hc).mp hpm, hx⟩)
      · exact Or.inr (Or.inr ⟨p, (parentEdges_mem_of_perm hp).mp hpm, hx⟩)
    · rintro (⟨kv, hkv, hx⟩ | ⟨p, hpm, hx⟩ | ⟨p, hpm, hx⟩)
      · exact Or.inl ⟨kv, hattr.mem_iff.mpr hkv, hx⟩
      · exact Or.inr (Or.inl ⟨p, (childEdges_mem_of_perm hc).mpr hpm, hx⟩)
      · exact Or.inr (Or.inr ⟨p, (parentEdges_mem_of_perm hp).mpr hpm, hx⟩)
  have hedge : edgeFinset (read_graph m₁) = edgeFinset (read_graph m₂) := by
    apply Finset.ext
    intro e
    rw [edgeFinset, edgeFinset, List.mem_toFinset, List.mem_toFinset,
      read_graph_mem_edgeList, read_graph_mem_edgeList,
      childEdges_mem_of_perm hc, parentEdges_mem_of_perm hp]
  intro u
  rw [analyze_data_graph, analyze_data_graph, degree, degree, centrality,
    centrality, clustering, clustering, hnode, hedge]

/-- Manifest content of `mMirror` with every mapping's entries listed in a
different order. -/
def mPerm : Manifest :=
  { nodes := [("b", [("resource_type", "model")]),
              ("a", [("resource_type", "model")])],
    sources := [], exposures := [],
    child_map := [("a", ["b"])],
    parent_map := [("b", ["a"])] }

/-- Witness for C4 on `mMirror` versus its reordered copy `mPerm`. -/
theorem claim_C4_witness :
    List.Perm mMirror.nodes mPerm.nodes ∧
      List.Perm mMirror.sources mPerm.sources ∧
      List.Perm mMirror.exposures mPerm.exposures ∧
      List.Perm mMirror.child_map mPerm.child_map ∧
      List.Perm mMirror.parent_map mPerm.parent_map ∧
      ∀ u, analyze_data_graph (read_graph mMirror) u =
        analyze_data_graph (read_graph mPerm) u :=
  ⟨by decide, by decide, by decide, by decide, by decide,
    claim_C4 mMirror mPerm (by decide) (by decide) (by decide) (by decide)
      (by decide)⟩

/-! ## C5: attribute handling of colliding node ids -/

/-- The coupling invariant of `networkx` node storage: a node id is in the
node list exactly when it has an attribute bag. -/
def INV (g : DGraph) : Prop :=
  ∀ x, x ∈ g.nodeList ↔ (alookup g.attrs x).isSome

theorem inv_empty : INV DGraph.empty := by
  intro x
  simp [DGraph.empty, alookup]

theorem alookup_map_update (x n : String) (f : Attrs → Attrs) :
    ∀ {l : List (String × Attrs)},
      alookup (l.map (fun kv => if kv.1 = x then (kv.1, f kv.2) else kv)) n =
        if n = x then (alookup l n).map f else alookup l n := by
  intro l
  induction l with
  | nil => by_cases h : n = x <;> simp [alookup, h]
  | cons kv rest ih =>
    by_cases hkx : kv.1 = x
    · by_cases hkn : kv.1 = n
      · have hnx : n = x := hkn ▸ hkx
        simp [alookup, hkx, hkn, hnx]
      · have hkn' : ¬ (if kv.1 = x then (kv.1, f kv.2) else kv).1 = n := by
          rw [if_pos hkx]; exact hkn
        simp only [List.map_cons, alookup_cons, if_neg hkn', ih]
        simp [hkn]
    · by_cases hkn : kv.1 = n
      · have hnx : ¬ n = x := fun he => hkx (hkn.trans he)
        simp [alookup, hkx, hkn, hnx]
      · have hkn' : ¬ (if kv.1 = x then (kv.1, f kv.2) else kv).1 = n := by
          rw [if_neg hkx]; exact hkn
        simp only [List.map_cons, alookup_cons, if_neg hkn', ih]
        simp [hkn]

/-- The bag stored for a colliding key: `dict.update` of the existing bag,
or the incoming bag for a fresh key. -/
def dU (o : Option Attrs) (d : Attrs) : Attrs :=
  match o with
  | some old => dictUpdate old d
  | none => d

theorem alookup_addNode_attrs {g : DGraph} (hinv : INV g) (x n : String)
    (d : Attrs) :
    alookup (addNode g x d).attrs n =
      if n = x then some (dU (alookup g.attrs n) d)
      else alookup g.attrs n := by
  rw [addNode]
  split
  · rename_i hmem
    show alookup (g.attrs.map
      (fun kv => if kv.1 = x then (kv.1, dictUpdate kv.2 d) else kv)) n = _
    rw [alookup_map_update x n (fun old => dictUpdate old d)]
    by_cases hnx : n = x
    · subst hnx
      obtain ⟨old, hold⟩ := Option.isSome_iff_exists.mp ((hinv n).mp hmem)
      rw [if_pos rfl, if_pos rfl, hold]
      rfl
    · rw [if_neg hnx, if_neg hnx]
  · rename_i hmem
    show alookup (g.attrs ++ [(x, d)]) n = _
    rw [alookup_append]
    by_cases hnx : n = x
    · subst hnx
      have hnone : alookup g.attrs n = none := by
        cases ha : alookup g.attrs n with
        | none => rfl
        | some v =>
          exact absurd ((hinv n).mpr (by rw [ha]; rfl)) hmem
      rw [hnone]
      simp [alookup, dU, hnone]
    · cases ha : alookup g.attrs n with
      | some v => simp [if_neg hnx]
      | none =>
        have hxn : ¬ x = n := fun he => hnx he.symm
        simp [alookup, hxn, if_neg hnx]

theorem inv_addNode {g : DGraph} (hinv : INV g) (x : String) (d : Attrs) :
    INV (addNode g x d) := by
  intro y
  rw [mem_addNode_nodeList, alookup_addNode_attrs hinv]
  by_cases hyx : y = x
  · simp [hyx]
  · rw [if_neg hyx]
    constructor
    · rintro (h | h)
      · exact absurd h hyx
      · exact (hinv y).mp h
    · intro h
      exact Or.inr ((hinv y).mpr h)

theorem alookup_addEdgeNode_attrs {g : DGraph} (hinv : INV g)
    (x n : String) :
    alookup (addEdgeNode g x).attrs n =
      if n = x then some ((alookup g.attrs n).getD [])
      else alookup g.attrs n := by
  rw [addEdgeNode]
  split
  · rename_i hmem
    by_cases hnx : n = x
    · subst hnx
      obtain ⟨old, hold⟩ := Option.isSome_iff_exists.mp ((hinv n).mp hmem)
      rw [if_pos rfl, hold]
      rfl
    · rw [if_neg hnx]
  · rename_i hmem
    show alookup (g.attrs ++ [(x, [])]) n = _
    rw [alookup_append]
    by_cases hnx : n = x
    · subst hnx
      have hnone : alookup g.attrs n = none := by
        cases ha : alookup g.attrs n with
        | none => rfl
        | some v =>
          exact absurd ((hinv n).mpr (by rw [ha]; rfl)) hmem
      rw [hnone]
      simp [alookup, hnone]
    · cases ha : alookup g.attrs n with
      | some v => simp [if_neg hnx]
      | none =>
        have hxn : ¬ x = n := fun he => hnx he.symm
        simp [alookup, hxn, if_neg hnx]

theorem inv_addEdgeNode {g : DGraph} (hinv : INV g) (x : String) :
    INV (addEdgeNode g x) := by
  intro y
  rw [mem_addEdgeNode_nodeList, alookup_addEdgeNode_attrs hinv]
  by_cases hyx : y = x
  · simp [hyx]
  · rw [if_neg hyx]
    constructor
    · rintro (h | h)
      · exact absurd h hyx
      · exact (hinv y).mp h
    · intro h
      exact Or.inr ((hinv y).mpr h)

theorem inv_addEdge {g : DGraph} (hinv : INV g) (u v : String) :
    INV (addEdge g u v) := by
  intro y
  rw [addEdge]
  rw [addEdgeAux_nodeList, addEdgeAux_attrs]
  exact inv_addEdgeNode (inv_addEdgeNode hinv u) v y

theorem alookup_addEdge_attrs {g : DGraph} (hinv : INV g) {n : String}
    (hsome : (alookup g.attrs n).isSome) (u v : String) :
    alookup (addEdge g u v).attrs n = alookup g.attrs n := by
  obtain ⟨w, hw⟩ := Option.isSome_iff_exists.mp hsome
  have h1 : alookup (addEdgeNode g u).attrs n = alookup g.attrs n := by
    rw [alookup_addEdgeNode_attrs hinv]
    by_cases hnu : n = u
    · rw [if_pos hnu, hw]
      rfl
    · rw [if_neg hnu]
  have h2 : alookup (addEdgeNode (addEdgeNode g u) v).attrs n =
      alookup (addEdgeNode g u).attrs n := by
    rw [alookup_addEdgeNode_attrs (inv_addEdgeNode hinv u)]
    by_cases hnv : n = v
    · rw [if_pos hnv, h1, hw]
      rfl
    · rw [if_neg hnv]
  rw [addEdge, addEdgeAux_attrs, h2, h1]

theorem edgeFold_attrs {n : String} :
    ∀ {l : List (String × String)} {g : DGraph}, INV g →
      (alookup g.attrs n).isSome →
      alookup ((l.foldl (fun g p => addEdge g p.1 p.2) g)).attrs n =
        alookup g.attrs n := by
  intro l
  induction l with
  | nil => intro g _ _; rfl
  | cons p rest ih =>
    intro g hinv hsome
    rw [List.foldl_cons]
    have hstep := alookup_addEdge_attrs hinv hsome p.1 p.2
    rw [ih (inv_addEdge hinv p.1 p.2) (by rw [hstep]; exact hsome), hstep]

/-- `dict.update` fold of a sequence of bags into an optional prior
bag. -/
def mergeFold (o : Option Attrs) (ds : List Attrs) : Option Attrs :=
  ds.foldl (fun o d => some (dU o d)) o

theorem mergeFold_some_isSome (o : Attrs) :
    ∀ (ds : List Attrs), (mergeFold (some o) ds).isSome := by
  intro ds
  induction ds generalizing o with
  | nil => rfl
  | cons d rest ih => exact ih (dU (some o) d)

theorem mergeFold_isSome {ds : List Attrs} (h : ds ≠ []) (o : Option Attrs) :
    (mergeFold o ds).isSome := by
  cases ds with
  | nil => exact absurd rfl h
  | cons d rest => exact mergeFold_some_isSome (dU o d) rest

theorem nodeFold_attrs {n : String} :
    ∀ {l : List (String × Attrs)} {g : DGraph}, INV g →
      alookup ((l.foldl (fun g kv => addNode g kv.1 kv.2) g)).attrs n =
        mergeFold (alookup g.attrs n)
          ((l.filter (fun kv => decide (kv.1 = n))).map Prod.snd) := by
  intro l
  induction l with
  | nil => intro g _; rfl
  | cons kv rest ih =>
    intro g hinv
    rw [List.foldl_cons]
    rw [ih (inv_addNode hinv kv.1 kv.2)]
    rw [alookup_addNode_attrs hinv]
    by_cases hkn : kv.1 = n
    · rw [if_pos hkn.symm]
      have hf : (kv :: rest).filter (fun kv => decide (kv.1 = n)) =
          kv :: rest.filter (fun kv => decide (kv.1 = n)) := by
        rw [List.filter_cons, if_pos (by simp [hkn])]
      rw [hf, List.map_cons]
      rfl
    · rw [if_neg (fun he => hkn he.symm)]
      have hf : (kv :: rest).filter (fun kv => decide (kv.1 = n)) =
          rest.filter (fun kv => decide (kv.1 = n)) := by
        rw [List.filter_cons, if_neg (by simp [hkn])]
      rw [hf]

theorem inv_nodeFold :
    ∀ {l : List (String × Attrs)} {g : DGraph}, INV g →
      INV (l.foldl (fun g kv => addNode g kv.1 kv.2) g) := by
  intro l
  induction l with
  | nil => intro g h; exact h
  | cons kv rest ih =>
    intro g hinv
    rw [List.foldl_cons]
    exact ih (inv_addNode hinv kv.1 kv.2)

theorem inv_edgeFold :
    ∀ {l : List (String × String)} {g : DGraph}, INV g →
      INV (l.foldl (fun g p => addEdge g p.1 p.2) g) := by
  intro l
  induction l with
  | nil => intro g h; exact h
  | cons p rest ih =>
    intro g hinv
    rw [List.foldl_cons]
    exact ih (inv_addEdge hinv p.1 p.2)

/-- The sequence of attribute bags the manifest supplies for id `n`,
across `nodes`, `sources` and `exposures` in processing order. -/
def attrEntriesFor (m : Manifest) (n : String) : List Attrs :=
  ((m.nodes ++ m.sources ++ m.exposures).filter
    (fun kv => decide (kv.1 = n))).map Prod.snd

theorem read_graph_attrs_of_mem (m : Manifest) (n : String)
    (h : attrEntriesFor m n ≠ []) :
    alookup (read_graph m).attrs n = mergeFold none (attrEntriesFor m n) := by
  rw [read_graph_eq_flat]
  have hinv1 : INV (m.nodes.foldl (fun g kv => addNode g kv.1 kv.2)
      DGraph.empty) := inv_nodeFold inv_empty
  have hinv2 : INV (m.sources.foldl (fun g kv => addNode g kv.1 kv.2) _) :=
    inv_nodeFold hinv1
  have hinv3 : INV (m.exposures.foldl (fun g kv => addNode g kv.1 kv.2) _) :=
    inv_nodeFold hinv2
  have hg3 : alookup ((m.exposures.foldl (fun g kv => addNode g kv.1 kv.2)
      (m.sources.foldl (fun g kv => addNode g kv.1 kv.2)
        (m.nodes.foldl (fun g kv => addNode g kv.1 kv.2)
          DGraph.empty)))).attrs n = mergeFold none (attrEntriesFor m n) := by
    rw [nodeFold_attrs hinv2, nodeFold_attrs hinv1, nodeFold_attrs inv_empty]
    show mergeFold (mergeFold (mergeFold (alookup [] n) _) _) _ = _
    rw [attrEntriesFor, mergeFold, mergeFold, mergeFold, mergeFold]
    rw [List.filter_append, List.filter_append, List.map_append,
      List.map_append, List.foldl_append, List.foldl_append]
    rfl
  have hsome : (alookup ((m.exposures.foldl (fun g kv => addNode g kv.1 kv.2)
      (m.sources.foldl (fun g kv => addNode g kv.1 kv.2)
        (m.nodes.foldl (fun g kv => addNode g kv.1 kv.2)
          DGraph.empty)))).attrs n).isSome := by
    rw [hg3]
    exact mergeFold_isSome h none
  rw [edgeFold_attrs (inv_edgeFold hinv3) (by
    rw [edgeFold_attrs hinv3 hsome]; exact hsome),
    edgeFold_attrs hinv3 hsome, hg3]

/-- A manifest where id `a` appears in `nodes` with bag `{x: 1}` and in
`sources` with bag `{y: 2}`. -/
def mC5 : Manifest :=
  { nodes := [("a", [("x", "1")])],
    sources := [("a", [("y", "2")])],
    exposures := [], child_map := [], parent_map := [] }

/-- **C5** (counterexample): for `mC5` the last mapping processed for `a`
is `sources` with bag `{y: 2}`, but the built node's bag still answers
`x ↦ 1` — `networkx.add_node` merges with `dict.update`, it does not
replace the bag wholesale. -/
theorem claim_C5_counterexample :
    ¬ (∀ k, alookup ((alookup (read_graph mC5).attrs "a").getD []) k =
        alookup [("y", "2")] k) := by
  intro h
  have hx := h "x"
  revert hx
  decide

/-- **C5** (amended): for an id supplied by at least one of the three
mappings, the built node's attribute bag is the `dict.update` fold of all
bags supplied for that id across `nodes`, `sources` and `exposures` in
processing order: colliding keys take the later mapping's value, keys
present only in an earlier mapping persist. -/
theorem claim_C5_amended (m : Manifest) (n : String)
    (h : attrEntriesFor m n ≠ []) :
    ∃ d, alookup (read_graph m).attrs n = some d ∧
      mergeFold none (attrEntriesFor m n) = some d := by
  have heq := read_graph_attrs_of_mem m n h
  obtain ⟨d, hd⟩ := Option.isSome_iff_exists.mp (mergeFold_isSome h none)
  exact ⟨d, by rw [heq, hd], hd⟩

/-- Witness for C5 (amended) on `mC5` at id `a`: the merged bag keeps
`x ↦ 1` from `nodes` and gains `y ↦ 2` from `sources`. -/
theorem claim_C5_amended_witness :
    attrEntriesFor mC5 "a" ≠ [] ∧
      (∃ d, alookup (read_graph mC5).attrs "a" = some d ∧
        mergeFold none (attrEntriesFor mC5 "a") = some d) :=
  ⟨by decide, claim_C5_amended mC5 "a" (by decide)⟩

end DbtGraph
